import Mathlib

/-!
Verification of the classical core of the Quantum-Crypto-Attack repository
(3-round-Feistel distinguisher): the Feistel model and masked probe function
from `src/include/feistel.hpp`, the incremental GF(2) solver from
`src/include/matrix.hpp`, and the distinguisher controller from
`src/src/main.cpp`.

All code is embedded shallowly: `size_t` values become `Nat` (no intermediate
value in the verified statements reaches `2^64` when the C++ template
parameters are in their meaningful range, so no wraparound is modelled),
`std::array<bool, N>` registers become `Nat → Bool` functions read only below
the width, `std::vector` members become lists, and the C++ exceptions become
`Except`/`Option` results together with the post-state the throwing object
keeps.
-/

/-! ## `src/include/feistel.hpp` -/

/-- `run_feistel_encrypt` from `src/include/feistel.hpp`: splits the input in
an `l`/`r` half of `Bits` bits each, then folds the round iteration
`next_l = r; next_r = l ^ round_function(r, key)` over the keys. -/
def run_feistel_encrypt (Bits : Nat) (input : Nat) (round_function : Nat → Nat → Nat)
    (keys : List Nat) : Nat :=
  let r_mask := (1 <<< Bits) - 1
  let l_mask := r_mask <<< Bits
  let r := input &&& r_mask
  let l := (input &&& l_mask) >>> Bits
  let p := keys.foldl (fun (s : Nat × Nat) k => (s.2, s.1 ^^^ round_function s.2 k)) (l, r)
  p.2 ||| (p.1 <<< Bits)

/-- `run_feistel_decrypt` from `src/include/feistel.hpp`: the loop accesses
`keys[keys.size() - 1 - i]` at iteration `i`, i.e. it folds
`prev_r = l; prev_l = r ^ round_function(l, key)` over the reversed key list. -/
def run_feistel_decrypt (Bits : Nat) (input : Nat) (round_function : Nat → Nat → Nat)
    (keys : List Nat) : Nat :=
  let r_mask := (1 <<< Bits) - 1
  let l_mask := r_mask <<< Bits
  let r := input &&& r_mask
  let l := (input &&& l_mask) >>> Bits
  let p := keys.reverse.foldl (fun (s : Nat × Nat) k => (s.2 ^^^ round_function s.1 k, s.1)) (l, r)
  p.2 ||| (p.1 <<< Bits)

/-- `run_f` from `src/include/feistel.hpp` (the masked probe function of §3 of
the paper): the low bit of `input` selects the mask (`beta` if set, `alpha`
otherwise), the callback is queried at `(a << Bits) | mask`, and the high half
of the result is xored with the mask. -/
def run_f (Bits : Nat) (input : Nat) (callback : Nat → Nat) (alpha beta : Nat) : Nat :=
  let w := fun (x : Nat) => (callback x >>> Bits) &&& ((1 <<< Bits) - 1)
  let a := input >>> 1
  let b := input &&& 1
  let mask := if b ≠ 0 then beta else alpha
  w ((a <<< Bits) ||| mask) ^^^ mask

/-! ## `src/include/matrix.hpp` -/

/-- A boolean register (`std::array<bool, N>`); entries at or beyond the width
in force are never read by the embedded code. -/
abbrev Row := Nat → Bool

/-- `xor_vectors` from `src/include/matrix.hpp`: xors the destination register
with the source register, entrywise. -/
def xor_vectors (dest src : Row) : Row := fun i => xor (dest i) (src i)

/-- `zero_vector` from `src/include/matrix.hpp`, over entries `0..n-1`. -/
def zero_vector (n : Nat) (src : Row) : Bool :=
  (List.range n).all fun i => !src i

/-- `one_vector` from `src/include/matrix.hpp`, over entries `0..n-1`:
entries `0..n-2` must be 0 and entry `n-1` must be 1. -/
def one_vector (n : Nat) (src : Row) : Bool :=
  (((List.range (n - 1)).all fun i => !src i)) && src (n - 1)

/-- The state of a `MatrixSolver<Width>` (the width is passed to the
operations): the count of independent rows, the matrix contents, and the
target column. -/
structure MatrixSolver where
  independent_rows : Nat
  contents : List Row
  targets : List Bool

/-- A freshly constructed `MatrixSolver` (`independent_rows(0)`, empty rows). -/
def MatrixSolver.empty : MatrixSolver := ⟨0, [], []⟩

/-- `MatrixSolver::getIndependent`. -/
def MatrixSolver.getIndependent (s : MatrixSolver) : Nat := s.independent_rows

/-- Read row `i` of the contents vector (in-range in all embedded code paths). -/
def getRow (l : List Row) (i : Nat) : Row := l.getD i (fun _ => false)

/-- Read target bit `i` (in-range in all embedded code paths). -/
def getTarget (l : List Bool) (i : Nat) : Bool := l.getD i false

/-- `std::swap` of two rows of a function-represented matrix. -/
def swapRows (M : Nat → Row) (i j : Nat) : Nat → Row :=
  fun t => if t = i then M j else if t = j then M i else M t

/-- One column pass (`j`) of the Gaussian elimination inside
`MatrixSolver::independent`: find the first pivot at or below the current
`row_offset`, swap it up, advance the offset, and xor the pivot row into every
later row with a 1 in column `j`.  When no pivot exists, every row at or below
`row_offset` has a 0 in column `j`, so the C++ elimination loop of that pass
(whose condition starts with `content_copy[k][j]`) performs no writes and the
state is unchanged. -/
def colStep (m j : Nat) (s : (Nat → Row) × Nat) : (Nat → Row) × Nat :=
  match (List.range m).find? (fun k => decide (s.2 ≤ k) && s.1 k j) with
  | none => s
  | some k =>
      let M1 := swapRows s.1 k s.2
      (fun t => if decide (s.2 + 1 ≤ t) && decide (t < m) && M1 t j && M1 s.2 j then
          xor_vectors (M1 t) (M1 s.2) else M1 t,
       s.2 + 1)

/-- The full column loop (`j = 0 .. n-1`) of the elimination inside
`MatrixSolver::independent`, on an `m`-row copy, starting at `row_offset = 0`. -/
def elimLoop (m n : Nat) (M : Nat → Row) : (Nat → Row) × Nat :=
  (List.range n).foldl (fun s j => colStep m j s) (M, 0)

/-- The augmented working copy built by `MatrixSolver::independent`: rows
`0..independent_rows-1` are the independent prefix with the target bit
appended as column `W`; the final row is row `row` of the contents with its
target bit appended.  (Only rows `0..independent_rows` are ever read.) -/
def augCopy (W : Nat) (s : MatrixSolver) (row : Nat) : Nat → Row :=
  fun i c =>
    if i < s.independent_rows then
      (if c < W then getRow s.contents i c else if c = W then getTarget s.targets i else false)
    else
      (if c < W then getRow s.contents row c else if c = W then getTarget s.targets row else false)

/-- `MatrixSolver::independent`: eliminates the copy of the independent prefix
plus candidate row `row` over the `W+1` augmented columns, then inspects the
final row.  `.error ()` models `throw std::runtime_error("Invalid equation")`;
`.ok b` is the returned independence flag. -/
def MatrixSolver.independent (W : Nat) (s : MatrixSolver) (row : Nat) : Except Unit Bool :=
  let M := (elimLoop (s.independent_rows + 1) (W + 1) (augCopy W s row)).1
  if one_vector (W + 1) (M s.independent_rows) then .error ()
  else .ok (!zero_vector (W + 1) (M s.independent_rows))

/-- `std::swap` of entries `i` and `j` of a vector. -/
def listSwap {α : Type} (l : List α) (i j : Nat) (d : α) : List α :=
  (l.set i (l.getD j d)).set j (l.getD i d)

/-- `MatrixSolver::addRow(new_row, solution)`.  The C++ method pushes the row
and target, tests independence (possibly throwing), and on independence swaps
the row into the prefix and increments the count.  The returned `Bool` records
whether the `Invalid equation` exception escaped; the returned state is the
state the object is left in (the pushed row stays behind on a throw). -/
def MatrixSolver.addRow (W : Nat) (s : MatrixSolver) (new_row : Row) (solution : Bool) :
    MatrixSolver × Bool :=
  let s1 : MatrixSolver :=
    ⟨s.independent_rows, s.contents ++ [new_row], s.targets ++ [solution]⟩
  match s1.independent W (s1.contents.length - 1) with
  | .error _ => (s1, true)
  | .ok true =>
      (⟨s1.independent_rows + 1,
        listSwap s1.contents s1.independent_rows (s1.contents.length - 1) (fun _ => false),
        listSwap s1.targets s1.independent_rows (s1.targets.length - 1) false⟩, false)
  | .ok false => (s1, false)

/-- The coefficient register extracted from a masked encoding by
`MatrixSolver::addRow(size_t)`: entry `i` (for `i < W`) is bit `i+1`. -/
def encRow (W encoded : Nat) : Row :=
  fun i => if i < W then encoded.testBit (i + 1) else false

/-- `MatrixSolver::addRow(size_t encoded)`: bit 0 of the encoding is the
target, bits `1..W` are the coefficients. -/
def MatrixSolver.addRowEncoded (W : Nat) (s : MatrixSolver) (encoded : Nat) :
    MatrixSolver × Bool :=
  s.addRow W (encRow W encoded) (encoded.testBit 0)

/-- One column pass (`i`) of `MatrixSolver::gaussianEliminate`: find the first
row at or below `i` with a 1 in column `i`, swap it (and its target) into row
`i`, and xor row `i` (and its target) into every later row with a 1 in column
`i`.  When no pivot exists every row of the elimination loop has a 0 in column
`i` and the pass changes nothing. -/
def gElimStep (ir i : Nat) (s : (Nat → Row) × (Nat → Bool)) : (Nat → Row) × (Nat → Bool) :=
  match (List.range ir).find? (fun j => decide (i ≤ j) && s.1 j i) with
  | none => s
  | some j =>
      let C1 := swapRows s.1 j i
      let T1 : Nat → Bool := fun t => if t = j then s.2 i else if t = i then s.2 j else s.2 t
      (fun t => if decide (i + 1 ≤ t) && decide (t < ir) && C1 t i then
          xor_vectors (C1 t) (C1 i) else C1 t,
       fun t => if decide (i + 1 ≤ t) && decide (t < ir) && C1 t i then
          xor (T1 i) (T1 t) else T1 t)

/-- `MatrixSolver::gaussianEliminate` as a function of the contents/targets
(read positionally); only rows `0..ir-1` are touched. -/
def gaussianEliminate (W ir : Nat) (C : Nat → Row) (T : Nat → Bool) :
    (Nat → Row) × (Nat → Bool) :=
  (List.range W).foldl (fun s i => gElimStep ir i s) (C, T)

/-- Writes entry `k` of a function-represented register. -/
def setIdx (f : Nat → Bool) (k : Nat) (b : Bool) : Nat → Bool :=
  fun t => if t = k then b else f t

/-- The `sub_result` accumulation of `MatrixSolver::backwardSubstitute` for row
`index`: the xor over `i` in `[index+1, ir)` of `result[i] & contents[index][i]`. -/
def backSubAcc (ir index : Nat) (C : Nat → Row) (res : Nat → Bool) : Bool :=
  (List.range' (index + 1) (ir - (index + 1))).foldl
    (fun acc i => xor acc (res i && C index i)) false

/-- The descending loop of `MatrixSolver::backwardSubstitute` (`j` counts down
from `ir`; row `j-1` is resolved at each step). -/
def backSubGo (ir : Nat) (C : Nat → Row) (T : Nat → Bool) : Nat → (Nat → Bool) → (Nat → Bool)
  | 0, res => res
  | j + 1, res => backSubGo ir C T j (setIdx res j (xor (backSubAcc ir j C res) (T j)))

/-- `MatrixSolver::backwardSubstitute`.  The C++ `result` register starts
uninitialised; entries are written before any read on the `solve` path
(`ir = Width`), so initialising with `false` is observationally faithful. -/
def backwardSubstitute (ir : Nat) (C : Nat → Row) (T : Nat → Bool) : Nat → Bool :=
  backSubGo ir C T ir (fun _ => false)

/-- `MatrixSolver::solve`: `none` models the
`Could not solve, invalid number of rows` exception (raised before any
mutation); on success the returned state carries the in-place Gaussian
elimination of the rows (rows at or beyond `independent_rows` are untouched by
the elimination, so mapping the eliminated functions back over all positions
is the in-place result). -/
def MatrixSolver.solve (W : Nat) (s : MatrixSolver) : Option ((Nat → Bool) × MatrixSolver) :=
  if s.independent_rows ≠ W then none
  else
    let p := gaussianEliminate W s.independent_rows (getRow s.contents) (getTarget s.targets)
    some (backwardSubstitute s.independent_rows p.1 p.2,
      ⟨s.independent_rows,
       (List.range s.contents.length).map p.1,
       (List.range s.targets.length).map p.2⟩)

/-- `MatrixSolver::solveEncoded`: re-encodes the solution with bit 0 set to 1
and bit `i+1` carrying solution bit `i`. -/
def MatrixSolver.solveEncoded (W : Nat) (s : MatrixSolver) : Option (Nat × MatrixSolver) :=
  (s.solve W).map fun p =>
    ((List.range W).foldl (fun acc i => acc ||| (if p.1 i then 1 <<< (i + 1) else 0)) 1, p.2)

/-! ## `src/src/main.cpp`: the distinguisher controller -/

/-- The three verdicts printed by `run_feistel_detect`. -/
inductive Verdict where
  | feistelSolved
  | randomPerm
  | feistelBudget
deriving DecidableEq

/-- Result of a controller run: the verdict (`none` when the model's allowance
for discarded inconsistent samples ran out — the C++ loop retries these
without bound), the number of sampling calls consumed and the number of
samples discarded as inconsistent. -/
structure DetectResult where
  verdict : Option Verdict
  samples : Nat
  rejects : Nat
deriving DecidableEq

/-- The rank check, equation solving and verification performed inside a
successful loop iteration of `run_feistel_detect`: `some v` is a terminal
verdict, `none` means the loop continues.  (`solveEncoded` cannot fail here
since it is guarded by `independent_rows = W`.) -/
def detectCheck (W : Nat) (f : Nat → Nat) (u : Nat) (s : MatrixSolver) : Option Verdict :=
  if s.independent_rows = W then
    match MatrixSolver.solveEncoded W s with
    | none => none
    | some q =>
        if f u = f (u ^^^ q.1) then some Verdict.feistelSolved else some Verdict.randomPerm
  else none

/-- The sampling loop of `run_feistel_detect` (`for(size_t i = 0; i < 2*Bits; ++i)`
with `--i` on a caught `Invalid equation`).  The external Simon sampling
subroutine (out of scope per §1/§6 of the spec) is abstracted as `stream`:
`stream pos` is the first-register measurement returned by the `pos`-th call.
`u` is the random verification input drawn once the system solves.  `budget`
is the number of successful attempts remaining (initially `2*Bits`); `rejFuel`
is a model-only allowance of discarded inconsistent samples — the C++ loop
retries those without decrementing anything. -/
def detectGo (W : Nat) (f : Nat → Nat) (stream : Nat → Nat) (u : Nat) :
    Nat → Nat → Nat → Nat → MatrixSolver → DetectResult
  | _, _, 0, _, _ => ⟨some Verdict.feistelBudget, 0, 0⟩
  | 0, _, _ + 1, _, _ => ⟨none, 0, 0⟩
  | fuel + 1, pos, budget + 1, rejFuel, solver =>
      let p := MatrixSolver.addRowEncoded W solver (stream pos)
      if p.2 then
        match rejFuel with
        | 0 => ⟨none, 1, 1⟩
        | rf + 1 =>
            let r := detectGo W f stream u fuel (pos + 1) (budget + 1) rf p.1
            ⟨r.verdict, r.samples + 1, r.rejects + 1⟩
      else
        match detectCheck W f u p.1 with
        | some v => ⟨some v, 1, 0⟩
        | none =>
            let r := detectGo W f stream u fuel (pos + 1) budget rejFuel p.1
            ⟨r.verdict, r.samples + 1, r.rejects⟩

/-- The sampling loop with its counters: each step consumes one unit of the
structural fuel `budget + rejFuel` of `detectGo`, so the fuel-exhaustion
branch of `detectGo` is never taken. -/
def detectLoop (W : Nat) (f : Nat → Nat) (stream : Nat → Nat) (u : Nat)
    (pos budget rejFuel : Nat) (solver : MatrixSolver) : DetectResult :=
  detectGo W f stream u (budget + rejFuel) pos budget rejFuel solver

/-- `run_feistel_detect` from `src/src/main.cpp`: builds the probe function
`run_f` over the callback with the (randomly drawn, here parametric) masks
`ALPHA`/`BETA`, then runs the sampling loop with budget `2*Bits` on a fresh
solver. -/
def run_feistel_detect (Bits : Nat) (internal_callback : Nat → Nat) (ALPHA BETA : Nat)
    (stream : Nat → Nat) (u : Nat) (rejFuel : Nat) : DetectResult :=
  detectLoop Bits (fun input => run_f Bits input internal_callback ALPHA BETA)
    stream u 0 (2 * Bits) rejFuel MatrixSolver.empty

/-! ## Bit-level helper lemmas -/

theorem testBit_high_false {x W i : Nat} (h : x < 2 ^ W) (hi : W ≤ i) : x.testBit i = false :=
  Nat.testBit_lt_two_pow (lt_of_lt_of_le h (Nat.pow_le_pow_right (by norm_num) hi))

theorem and_low_mask (x W : Nat) : x &&& ((1 <<< W) - 1) = x % 2 ^ W := by
  rw [Nat.one_shiftLeft, Nat.and_pow_two_sub_one_eq_mod]

theorem and_low_mask_lt (x W : Nat) : x &&& ((1 <<< W) - 1) < 2 ^ W := by
  rw [and_low_mask]; exact Nat.mod_lt _ (Nat.pos_pow_of_pos W (by norm_num))

theorem and_low_mask_of_lt {x W : Nat} (h : x < 2 ^ W) : x &&& ((1 <<< W) - 1) = x := by
  rw [and_low_mask]; exact Nat.mod_eq_of_lt h

theorem high_extract_lt (x W : Nat) : (x &&& (((1 <<< W) - 1) <<< W)) >>> W < 2 ^ W := by
  apply Nat.lt_pow_two_of_testBit
  intro i hi
  simp only [Nat.one_shiftLeft, Nat.testBit_shiftRight, Nat.testBit_and, Nat.testBit_shiftLeft,
    Nat.testBit_two_pow_sub_one]
  have : ¬ (W + i - W < W) := by omega
  simp [this]
  exact fun _ => hi

theorem split_low {l r W : Nat} (hr : r < 2 ^ W) : (r ||| (l <<< W)) &&& ((1 <<< W) - 1) = r := by
  apply Nat.eq_of_testBit_eq; intro i
  simp only [Nat.one_shiftLeft, Nat.testBit_and, Nat.testBit_or, Nat.testBit_shiftLeft,
    Nat.testBit_two_pow_sub_one]
  by_cases hi : i < W
  · have h2 : ¬ (W ≤ i) := by omega
    simp [hi, h2]
  · simp [hi, testBit_high_false hr (Nat.not_lt.mp hi)]

theorem split_high {l r W : Nat} (hr : r < 2 ^ W) (hl : l < 2 ^ W) :
    ((r ||| (l <<< W)) &&& (((1 <<< W) - 1) <<< W)) >>> W = l := by
  apply Nat.eq_of_testBit_eq; intro i
  simp only [Nat.one_shiftLeft, Nat.testBit_shiftRight, Nat.testBit_and, Nat.testBit_or,
    Nat.testBit_shiftLeft, Nat.testBit_two_pow_sub_one]
  have hr' : r.testBit (W + i) = false := testBit_high_false hr (Nat.le_add_right W i)
  have h1 : W ≤ W + i := Nat.le_add_right W i
  have h2 : W + i - W = i := by omega
  by_cases hi : i < W
  · simp [hr', h1, h2, hi]
  · simp [hr', h1, h2, hi, testBit_high_false hl (Nat.not_lt.mp hi)]

theorem join_split {x W : Nat} (hx : x < 2 ^ (2 * W)) :
    (x &&& ((1 <<< W) - 1)) ||| (((x &&& (((1 <<< W) - 1) <<< W)) >>> W) <<< W) = x := by
  apply Nat.eq_of_testBit_eq; intro i
  simp only [Nat.one_shiftLeft, Nat.testBit_or, Nat.testBit_and, Nat.testBit_shiftLeft,
    Nat.testBit_shiftRight, Nat.testBit_two_pow_sub_one]
  by_cases hi : i < W
  · have h2 : ¬ (W ≤ i) := by omega
    simp [hi, h2]
  · have h1 : W ≤ i := Nat.not_lt.mp hi
    by_cases hi2 : i < 2 * W
    · have h3 : W + (i - W) = i := by omega
      have h4 : i - W < W := by omega
      simp [hi, h1, h3, h4]
    · have h5 : x.testBit i = false := by
        apply testBit_high_false hx; omega
      have h6 : ¬ (i - W < W) := by omega
      simp [hi, h5, h6]

theorem shiftLeft_shiftRight_self (a W : Nat) : (a <<< W) >>> W = a := by
  apply Nat.eq_of_testBit_eq; intro i
  simp only [Nat.testBit_shiftRight, Nat.testBit_shiftLeft]
  have h1 : W ≤ W + i := Nat.le_add_right W i
  have h2 : W + i - W = i := by omega
  simp [h1, h2]

theorem or_shiftRight (a b n : Nat) : (a ||| b) >>> n = (a >>> n) ||| (b >>> n) := by
  apply Nat.eq_of_testBit_eq; intro i
  simp [Nat.testBit_shiftRight, Nat.testBit_or]

theorem xor_shiftRight (a b n : Nat) : (a ^^^ b) >>> n = (a >>> n) ^^^ (b >>> n) := by
  apply Nat.eq_of_testBit_eq; intro i
  simp [Nat.testBit_shiftRight, Nat.testBit_xor]

theorem shiftRight_eq_zero {a W : Nat} (h : a < 2 ^ W) : a >>> W = 0 := by
  rw [Nat.shiftRight_eq_div_pow]; exact Nat.div_eq_of_lt h

theorem and_one_eq (x : Nat) : x &&& 1 = if x.testBit 0 then 1 else 0 := by
  rw [Nat.and_one_is_mod]
  rcases Nat.mod_two_eq_zero_or_one x with h | h <;>
    simp [h, Nat.testBit, Nat.shiftRight_zero, Nat.and_one_is_mod]

/-! ## Feistel round-trip (claim C2) -/

theorem feistel_fold_inverse (f : Nat → Nat → Nat) (keys : List Nat) (s : Nat × Nat) :
    keys.reverse.foldl (fun (s : Nat × Nat) k => (s.2 ^^^ f s.1 k, s.1))
      (keys.foldl (fun (s : Nat × Nat) k => (s.2, s.1 ^^^ f s.2 k)) s) = s := by
  induction keys generalizing s with
  | nil => rfl
  | cons k ks ih =>
      simp only [List.foldl_cons, List.reverse_cons, List.foldl_append, List.foldl_nil]
      rw [ih ((s.2, s.1 ^^^ f s.2 k))]
      simp [Nat.xor_cancel_right]

theorem feistel_fold_bound {W : Nat} (f : Nat → Nat → Nat) (hf : ∀ x k, f x k < 2 ^ W)
    (keys : List Nat) (s : Nat × Nat) (h1 : s.1 < 2 ^ W) (h2 : s.2 < 2 ^ W) :
    (keys.foldl (fun (s : Nat × Nat) k => (s.2, s.1 ^^^ f s.2 k)) s).1 < 2 ^ W ∧
    (keys.foldl (fun (s : Nat × Nat) k => (s.2, s.1 ^^^ f s.2 k)) s).2 < 2 ^ W := by
  induction keys generalizing s with
  | nil => exact ⟨h1, h2⟩
  | cons k ks ih =>
      simp only [List.foldl_cons]
      exact ih _ h2 (Nat.xor_lt_two_pow h1 (hf s.2 k))

/-- The round-trip theorem for the embedded Feistel code: provided the round
function produces values below `2^Bits` (so that the halves never overflow
into each other through the unmasked `l ^ round_function(r, key)` update) and
the input fits in the `2*Bits`-bit block, decryption inverts encryption for
every key list. -/
theorem run_feistel_decrypt_encrypt {Bits : Nat} (f : Nat → Nat → Nat) (keys : List Nat)
    {x : Nat} (hf : ∀ a k, f a k < 2 ^ Bits) (hx : x < 2 ^ (2 * Bits)) :
    run_feistel_decrypt Bits (run_feistel_encrypt Bits x f keys) f keys = x := by
  unfold run_feistel_encrypt run_feistel_decrypt
  simp only []
  set r0 := x &&& ((1 <<< Bits) - 1) with hr0
  set l0 := (x &&& (((1 <<< Bits) - 1) <<< Bits)) >>> Bits with hl0
  have hr0b : r0 < 2 ^ Bits := and_low_mask_lt x Bits
  have hl0b : l0 < 2 ^ Bits := high_extract_lt x Bits
  have hb := feistel_fold_bound f hf keys (l0, r0) hl0b hr0b
  set p := keys.foldl (fun (s : Nat × Nat) k => (s.2, s.1 ^^^ f s.2 k)) (l0, r0) with hp
  rw [split_low hb.2, split_high hb.2 hb.1]
  have hinv := feistel_fold_inverse f keys (l0, r0)
  rw [← hp] at hinv
  rw [hinv]
  exact join_split hx

/-! ## The hidden XOR structure of the probe over a 3-round Feistel (claim C1) -/

theorem and_one_ne_zero_iff (x : Nat) : (x &&& 1 ≠ 0) ↔ x.testBit 0 = true := by
  rw [and_one_eq]
  split <;> simp_all

/-- The high half of the 3-round Feistel network evaluated at the probe query
`(a << Bits) | mask`, for a `Bits`-bounded round function: it is the xor of the
mask with the second-round output. -/
theorem feistel3_high {W : Nat} (R : Nat → Nat → Nat) (k0 k1 k2 a mask : Nat)
    (hR : ∀ x k, R x k < 2 ^ W) (ha : a < 2 ^ W) (hm : mask < 2 ^ W) :
    (run_feistel_encrypt W ((a <<< W) ||| mask) R [k0, k1, k2] >>> W) &&& ((1 <<< W) - 1)
      = mask ^^^ R (a ^^^ R mask k0) k1 := by
  unfold run_feistel_encrypt
  simp only []
  have hr0 : ((a <<< W) ||| mask) &&& ((1 <<< W) - 1) = mask := by
    rw [Nat.lor_comm]; exact split_low hm
  have hl0 : (((a <<< W) ||| mask) &&& (((1 <<< W) - 1) <<< W)) >>> W = a := by
    rw [Nat.lor_comm]; exact split_high hm ha
  rw [hr0, hl0]
  simp only [List.foldl_cons, List.foldl_nil]
  have h1 : a ^^^ R mask k0 < 2 ^ W := Nat.xor_lt_two_pow ha (hR mask k0)
  have h2 : mask ^^^ R (a ^^^ R mask k0) k1 < 2 ^ W := Nat.xor_lt_two_pow hm (hR _ k1)
  have h3 : (a ^^^ R mask k0) ^^^ R (mask ^^^ R (a ^^^ R mask k0) k1) k2 < 2 ^ W :=
    Nat.xor_lt_two_pow h1 (hR _ k2)
  rw [or_shiftRight, shiftRight_eq_zero h3, shiftLeft_shiftRight_self, Nat.zero_or,
    and_low_mask_of_lt h2]

/-- Closed form of the probe `run_f` over a 3-round Feistel oracle with a
`Bits`-bounded round function: the probe returns the second-round value
`R((u >> 1) ^ R(mask, k0), k1)` where the low bit of `u` selects the mask. -/
theorem run_f_feistel3 {W : Nat} (R : Nat → Nat → Nat) (k0 k1 k2 alpha beta u : Nat)
    (hR : ∀ x k, R x k < 2 ^ W) (hal : alpha < 2 ^ W) (hbe : beta < 2 ^ W)
    (hu : u < 2 ^ (W + 1)) :
    run_f W u (fun x => run_feistel_encrypt W x R [k0, k1, k2]) alpha beta
      = R ((u >>> 1) ^^^ R (if u &&& 1 ≠ 0 then beta else alpha) k0) k1 := by
  have ha : u >>> 1 < 2 ^ W := by
    rw [Nat.shiftRight_eq_div_pow, pow_one]
    rw [pow_succ] at hu
    omega
  have hmb : (if u &&& 1 ≠ 0 then beta else alpha) < 2 ^ W := by split <;> assumption
  unfold run_f
  simp only []
  rw [feistel3_high R k0 k1 k2 (u >>> 1) _ hR ha hmb]
  rw [Nat.xor_comm _ (R _ k1), Nat.xor_cancel_right]

theorem encoded_shiftRight_one (d : Nat) : ((d <<< 1) ||| 1) >>> 1 = d := by
  apply Nat.eq_of_testBit_eq; intro i
  simp only [Nat.testBit_shiftRight, Nat.testBit_or, Nat.testBit_shiftLeft]
  have h1 : (1 : Nat).testBit (1 + i) = false := testBit_high_false (W := 1) (by norm_num) (by omega)
  have h2 : 1 + i - 1 = i := by omega
  simp [h1, h2]

theorem encoded_testBit_zero (d : Nat) : ((d <<< 1) ||| 1).testBit 0 = true := by
  simp [Nat.testBit_or, Nat.testBit]

theorem encoded_lt {d W : Nat} (hd : d < 2 ^ W) : (d <<< 1) ||| 1 < 2 ^ (W + 1) := by
  apply Nat.lt_pow_two_of_testBit
  intro i hi
  simp only [Nat.testBit_or, Nat.testBit_shiftLeft]
  have h1 : d.testBit (i - 1) = false := testBit_high_false hd (by omega)
  have h2 : (1 : Nat).testBit i = false := testBit_high_false (W := 1) (by norm_num) (by omega)
  simp [h1, h2]

theorem encoded_ne_zero (d : Nat) : (d <<< 1) ||| 1 ≠ 0 := by
  intro h
  have := encoded_testBit_zero d
  rw [h] at this
  simp [Nat.testBit] at this

/-- C1, counterexample.  The claim quantifies over *any* round function, but
`run_feistel_encrypt` never masks the round function's output, so a round
function returning values at or above `2^Bits` leaks into the high half of the
network.  With `Bits = 1`, keys `(0,0,0)`, `alpha = 0`, `beta = 1` and the
round function mapping 1 and 2 to 2 and everything else to 0, the probe takes
the values `[0, 0, 1, 0]` on `u = 0..3`, which is not invariant under xor with
any nonzero 2-bit string. -/
theorem claim_C1_counterexample :
    ¬ ∃ s, s ≠ 0 ∧ s < 2 ^ (1 + 1) ∧ ∀ u, u < 2 ^ (1 + 1) →
      run_f 1 u (fun x => run_feistel_encrypt 1 x
          (fun x _ => if x = 1 ∨ x = 2 then 2 else 0) [0, 0, 0]) 0 1
        = run_f 1 (u ^^^ s) (fun x => run_feistel_encrypt 1 x
            (fun x _ => if x = 1 ∨ x = 2 then 2 else 0) [0, 0, 0]) 0 1 := by
  intro ⟨s, hs0, hs4, h⟩
  interval_cases s
  · exact hs0 rfl
  · exact absurd (h 2 (by norm_num)) (by decide)
  · exact absurd (h 0 (by norm_num)) (by decide)
  · exact absurd (h 1 (by norm_num)) (by decide)

/-- C1, amended: for every 3-round Feistel oracle built from a round function
whose outputs fit in `Bits` bits (the unmasked `l ^ round_function(r, key)`
update makes wider outputs corrupt the halves) and any masks
`alpha, beta < 2^Bits`, the probe `run_f` has a nontrivial hidden XOR
structure: the nonzero `(Bits+1)`-bit string
`s = ((R(alpha,k0) ^ R(beta,k0)) << 1) | 1` satisfies
`run_f(u) = run_f(u ^ s)` for every `u < 2^(Bits+1)`. -/
theorem claim_C1_amended {W : Nat} (R : Nat → Nat → Nat) (k0 k1 k2 alpha beta : Nat)
    (hR : ∀ x k, R x k < 2 ^ W) (hal : alpha < 2 ^ W) (hbe : beta < 2 ^ W) :
    ∃ s, s ≠ 0 ∧ s < 2 ^ (W + 1) ∧ ∀ u, u < 2 ^ (W + 1) →
      run_f W u (fun x => run_feistel_encrypt W x R [k0, k1, k2]) alpha beta
        = run_f W (u ^^^ s) (fun x => run_feistel_encrypt W x R [k0, k1, k2]) alpha beta := by
  set d := R alpha k0 ^^^ R beta k0 with hd
  have hdb : d < 2 ^ W := Nat.xor_lt_two_pow (hR alpha k0) (hR beta k0)
  have hslt : (d <<< 1) ||| 1 < 2 ^ (W + 1) := encoded_lt hdb
  refine ⟨(d <<< 1) ||| 1, encoded_ne_zero d, hslt, ?_⟩
  intro u hu
  rw [run_f_feistel3 R k0 k1 k2 alpha beta u hR hal hbe hu,
    run_f_feistel3 R k0 k1 k2 alpha beta _ hR hal hbe (Nat.xor_lt_two_pow hu hslt)]
  have hshift : (u ^^^ ((d <<< 1) ||| 1)) >>> 1 = (u >>> 1) ^^^ d := by
    rw [xor_shiftRight, encoded_shiftRight_one]
  have hlowbit : (u ^^^ ((d <<< 1) ||| 1)).testBit 0 = !u.testBit 0 := by
    rw [Nat.testBit_xor, encoded_testBit_zero, Bool.xor_true]
  by_cases hb : u &&& 1 ≠ 0
  · have hb' : ¬ ((u ^^^ ((d <<< 1) ||| 1)) &&& 1 ≠ 0) := by
      rw [and_one_ne_zero_iff, hlowbit]
      rw [and_one_ne_zero_iff] at hb
      simp [hb]
    rw [if_pos hb, if_neg hb', hshift]
    congr 1
    rw [Nat.xor_assoc, hd]
    congr 1
    rw [Nat.xor_comm (R alpha k0) (R beta k0), Nat.xor_cancel_right]
  · have hb' : (u ^^^ ((d <<< 1) ||| 1)) &&& 1 ≠ 0 := by
      rw [and_one_ne_zero_iff, hlowbit]
      rw [and_one_ne_zero_iff] at hb
      simp at hb
      simp [hb]
    rw [if_neg hb, if_pos hb', hshift]
    congr 1
    rw [Nat.xor_assoc, hd]
    congr 1
    rw [Nat.xor_cancel_right]

/-- C1, witness for the amended theorem: a concrete bounded round function,
keys and masks at `Bits = 3`. -/
theorem claim_C1_witness :
    ∃ s, s ≠ 0 ∧ s < 2 ^ (3 + 1) ∧ ∀ u, u < 2 ^ (3 + 1) →
      run_f 3 u (fun x => run_feistel_encrypt 3 x
          (fun x k => (x * 3 + k * 5 + 1) % 8) [4, 2, 7]) 3 5
        = run_f 3 (u ^^^ s) (fun x => run_feistel_encrypt 3 x
            (fun x k => (x * 3 + k * 5 + 1) % 8) [4, 2, 7]) 3 5 :=
  claim_C1_amended (fun x k => (x * 3 + k * 5 + 1) % 8) 4 2 7 3 5
    (fun x k => Nat.mod_lt _ (by norm_num)) (by norm_num) (by norm_num)

/-- C2, counterexample.  The claim asserts the round trip for *every* round
function; with `Bits = 1`, the constant round function `2` (wider than one
bit) and one key, input 0 encrypts to 2 but decrypts back to 5. -/
theorem claim_C2_counterexample :
    run_feistel_decrypt 1 (run_feistel_encrypt 1 0 (fun _ _ => 2) [0]) (fun _ _ => 2) [0]
      ≠ 0 := by decide

/-- C2, amended: for every input that fits the `2*Bits`-bit block and every
round function whose outputs fit in `Bits` bits, decryption inverts
encryption for every key list — a structural property of the Feistel
construction that holds regardless of any further property of the round
function. -/
theorem claim_C2_amended {Bits : Nat} (f : Nat → Nat → Nat) (keys : List Nat) (x : Nat)
    (hf : ∀ a k, f a k < 2 ^ Bits) (hx : x < 2 ^ (2 * Bits)) :
    run_feistel_decrypt Bits (run_feistel_encrypt Bits x f keys) f keys = x :=
  run_feistel_decrypt_encrypt f keys hf hx

/-- C2, witness: a concrete 2-bit instance of the amended round trip. -/
theorem claim_C2_witness :
    run_feistel_decrypt 2 (run_feistel_encrypt 2 13 (fun a k => (a + k) % 4) [1, 2, 3])
      (fun a k => (a + k) % 4) [1, 2, 3] = 13 :=
  claim_C2_amended (fun a k => (a + k) % 4) [1, 2, 3] 13
    (fun a k => Nat.mod_lt _ (by norm_num)) (by norm_num)

/-! ## Claims C9 and C10: concrete solve scenario and the encoded solution -/

/-- GF(2) dot product of the first `W` entries of a coefficient register with
a solution register. -/
def dotRow (W : Nat) (r : Row) (x : Nat → Bool) : Bool :=
  (List.range W).foldl (fun acc i => xor acc (r i && x i)) false

/-- First step of the §8 literal scenario: submit `0b0110`. -/
def c9s1 : MatrixSolver × Bool := MatrixSolver.addRowEncoded 3 MatrixSolver.empty 6

/-- Second step of the §8 literal scenario: submit `0b0101`. -/
def c9s2 : MatrixSolver × Bool := MatrixSolver.addRowEncoded 3 c9s1.1 5

/-- Third step of the §8 literal scenario: submit `0b1001`. -/
def c9s3 : MatrixSolver × Bool := MatrixSolver.addRowEncoded 3 c9s2.1 9

/-- C9: the literal `Bits = 3` scenario: submitting the encoded equations
`0b0110`, `0b0101`, `0b1001` raises the rank to 3 with no error, and `solve()`
returns the unique vector whose dot product with each coefficient row matches
the corresponding target bit. -/
theorem claim_C9 :
    c9s1.2 = false ∧ c9s2.2 = false ∧ c9s3.2 = false ∧
    c9s3.1.getIndependent = 3 ∧
    (MatrixSolver.solve 3 c9s3.1).map
        (fun p => (dotRow 3 (encRow 3 6) p.1, dotRow 3 (encRow 3 5) p.1,
          dotRow 3 (encRow 3 9) p.1))
      = some (Nat.testBit 6 0, Nat.testBit 5 0, Nat.testBit 9 0) ∧
    (∀ y : Fin 3 → Bool,
      dotRow 3 (encRow 3 6) (fun i => if h : i < 3 then y ⟨i, h⟩ else false) = Nat.testBit 6 0 →
      dotRow 3 (encRow 3 5) (fun i => if h : i < 3 then y ⟨i, h⟩ else false) = Nat.testBit 5 0 →
      dotRow 3 (encRow 3 9) (fun i => if h : i < 3 then y ⟨i, h⟩ else false) = Nat.testBit 9 0 →
      (MatrixSolver.solve 3 c9s3.1).map (fun p => (p.1 0, p.1 1, p.1 2))
        = some (y 0, y 1, y 2)) := by
  decide

theorem foldl_or_testBit0 (e : Nat → Nat) (l : List Nat) (acc : Nat)
    (h : acc.testBit 0 = true) :
    (l.foldl (fun a i => a ||| e i) acc).testBit 0 = true := by
  induction l generalizing acc with
  | nil => exact h
  | cons x xs ih =>
      refine ih _ ?_
      rw [Nat.testBit_or, h, Bool.true_or]

theorem encodeSol_odd (W : Nat) (x : Nat → Bool) :
    ((List.range W).foldl (fun acc i => acc ||| (if x i then 1 <<< (i + 1) else 0)) 1) % 2
      = 1 := by
  have ht := foldl_or_testBit0 (fun i => if x i then 1 <<< (i + 1) else 0)
    (List.range W) 1 rfl
  rw [Nat.testBit_zero, decide_eq_true_eq] at ht
  exact ht

theorem xor_odd_low_bit {q : Nat} (h : q % 2 = 1) (u : Nat) :
    (u ^^^ q) &&& 1 ≠ u &&& 1 := by
  have hq : q.testBit 0 = true := by rw [Nat.testBit_zero, h]; rfl
  rw [and_one_eq, and_one_eq, Nat.testBit_xor, hq, Bool.xor_true]
  cases hu : u.testBit 0 <;> simp

/-- C10: whenever the solver has full rank, `solveEncoded` succeeds and
returns an odd integer (bit 0 is hard-wired to 1), so the controller's
verification input `u ^ s` always differs from `u` in the low selector bit
`input & 1` of the probe function. -/
theorem claim_C10 (W : Nat) (s : MatrixSolver) (h : s.independent_rows = W) :
    ∃ q, MatrixSolver.solveEncoded W s = some q ∧ q.1 % 2 = 1 ∧
      ∀ u : Nat, (u ^^^ q.1) &&& 1 ≠ u &&& 1 := by
  unfold MatrixSolver.solveEncoded MatrixSolver.solve
  rw [if_neg (by omega)]
  simp only [Option.map_some]
  refine ⟨_, rfl, ?_, ?_⟩
  · exact encodeSol_odd W _
  · exact fun u => xor_odd_low_bit (encodeSol_odd W _) u

/-- C10, witness: the full-rank solver of the C9 scenario. -/
theorem claim_C10_witness :
    ∃ q, MatrixSolver.solveEncoded 3 c9s3.1 = some q ∧ q.1 % 2 = 1 ∧
      ∀ u : Nat, (u ^^^ q.1) &&& 1 ≠ u &&& 1 :=
  claim_C10 3 c9s3.1 (by decide)

/-! ## Claims C7 and C8: the controller's budget and retry policy -/

theorem detectCheck_ne_budget (W : Nat) (f : Nat → Nat) (u : Nat) (s : MatrixSolver) :
    detectCheck W f u s ≠ some Verdict.feistelBudget := by
  unfold detectCheck
  split
  · rcases h : MatrixSolver.solveEncoded W s with _ | q
    · simp
    · simp only []
      split <;> simp
  · simp

/-- Counting invariant of the sampling loop: a run that ends in the
budget-exhaustion verdict consumed exactly `budget` successful samples (its
sample count is the budget plus the discarded inconsistent samples). -/
theorem detectGo_budget_count (W : Nat) (f : Nat → Nat) (stream : Nat → Nat) (u : Nat) :
    ∀ fuel pos budget rf solver, fuel = budget + rf →
      (detectGo W f stream u fuel pos budget rf solver).verdict = some Verdict.feistelBudget →
      (detectGo W f stream u fuel pos budget rf solver).samples
        = budget + (detectGo W f stream u fuel pos budget rf solver).rejects := by
  intro fuel
  induction fuel with
  | zero =>
      intro pos budget rf solver hf _
      have hb : budget = 0 := by omega
      subst hb
      simp [detectGo.eq_1]
  | succ fuel ih =>
      intro pos budget rf solver hf hv
      match budget, rf with
      | 0, rf => simp [detectGo.eq_1]
      | budget + 1, 0 =>
          rw [detectGo.eq_3] at hv ⊢
          rcases hp : (MatrixSolver.addRowEncoded W solver (stream pos)).2 with _ | _
          · simp only [hp, Bool.false_eq_true, if_false] at hv ⊢
            rcases hc : detectCheck W f u (MatrixSolver.addRowEncoded W solver (stream pos)).1
              with _ | v
            · simp only [hc] at hv ⊢
              have hf' : fuel = budget + 0 := by omega
              have := ih (pos + 1) budget 0
                (MatrixSolver.addRowEncoded W solver (stream pos)).1 hf' hv
              omega
            · simp only [hc] at hv
              exact absurd (by rw [hc, show v = Verdict.feistelBudget from by simpa using hv])
                (detectCheck_ne_budget W f u _)
          · simp [hp] at hv
      | budget + 1, rf + 1 =>
          rw [detectGo.eq_4] at hv ⊢
          simp only [Nat.succ_eq_add_one] at hv ⊢
          rcases hp : (MatrixSolver.addRowEncoded W solver (stream pos)).2 with _ | _
          · simp only [hp, Bool.false_eq_true, if_false] at hv ⊢
            rcases hc : detectCheck W f u (MatrixSolver.addRowEncoded W solver (stream pos)).1
              with _ | v
            · simp only [hc] at hv ⊢
              have hf' : fuel = budget + (rf + 1) := by omega
              have := ih (pos + 1) budget (rf + 1)
                (MatrixSolver.addRowEncoded W solver (stream pos)).1 hf' hv
              omega
            · simp only [hc] at hv
              exact absurd (by rw [hc, show v = Verdict.feistelBudget from by simpa using hv])
                (detectCheck_ne_budget W f u _)
          · simp only [hp, if_true] at hv ⊢
            have hf' : fuel = (budget + 1) + rf := by omega
            have := ih (pos + 1) (budget + 1) rf
              (MatrixSolver.addRowEncoded W solver (stream pos)).1 hf' hv
            omega

/-- Boundedness of the sampling loop: the number of sampling calls never
exceeds the success budget plus the allowance for discarded samples, and a run
that produces no verdict has discarded one more inconsistent sample than its
allowance. -/
theorem detectGo_bounded (W : Nat) (f : Nat → Nat) (stream : Nat → Nat) (u : Nat) :
    ∀ fuel pos budget rf solver, fuel = budget + rf →
      (detectGo W f stream u fuel pos budget rf solver).samples ≤ budget + rf ∧
      ((detectGo W f stream u fuel pos budget rf solver).verdict = none →
        (detectGo W f stream u fuel pos budget rf solver).rejects = rf + 1) := by
  intro fuel
  induction fuel with
  | zero =>
      intro pos budget rf solver hf
      have hb : budget = 0 := by omega
      subst hb
      simp [detectGo.eq_1]
  | succ fuel ih =>
      intro pos budget rf solver hf
      match budget, rf with
      | 0, rf => simp [detectGo.eq_1]
      | budget + 1, 0 =>
          rw [detectGo.eq_3]
          rcases hp : (MatrixSolver.addRowEncoded W solver (stream pos)).2 with _ | _
          · simp only [hp, Bool.false_eq_true, if_false]
            rcases hc : detectCheck W f u (MatrixSolver.addRowEncoded W solver (stream pos)).1
              with _ | v
            · simp only [hc]
              have hf' : fuel = budget + 0 := by omega
              have := ih (pos + 1) budget 0
                (MatrixSolver.addRowEncoded W solver (stream pos)).1 hf'
              constructor
              · omega
              · intro hn
                have := this.2 hn
                omega
            · simp only [hc]
              exact ⟨by omega, by simp⟩
          · simp only [hp, if_true]
            exact ⟨by omega, by simp⟩
      | budget + 1, rf + 1 =>
          rw [detectGo.eq_4]
          simp only [Nat.succ_eq_add_one]
          rcases hp : (MatrixSolver.addRowEncoded W solver (stream pos)).2 with _ | _
          · simp only [hp, Bool.false_eq_true, if_false]
            rcases hc : detectCheck W f u (MatrixSolver.addRowEncoded W solver (stream pos)).1
              with _ | v
            · simp only [hc]
              have hf' : fuel = budget + (rf + 1) := by omega
              have := ih (pos + 1) budget (rf + 1)
                (MatrixSolver.addRowEncoded W solver (stream pos)).1 hf'
              constructor
              · omega
              · intro hn
                have := this.2 hn
                omega
            · simp only [hc]
              exact ⟨by omega, by simp⟩
          · simp only [hp, if_true]
            have hf' : fuel = (budget + 1) + rf := by omega
            have := ih (pos + 1) (budget + 1) rf
              (MatrixSolver.addRowEncoded W solver (stream pos)).1 hf'
            constructor
            · omega
            · intro hn
              have := this.2 hn
              omega

theorem getD_concat_self {α : Type} (l : List α) (a d : α) :
    (l ++ [a]).getD l.length d = a := by
  induction l with
  | nil => rfl
  | cons x xs ih => simp [ih]

theorem fold_colStep_id (m : Nat) (M : Nat → Row) (l : List Nat)
    (h : ∀ j ∈ l, ∀ k, k < m → M k j = false) :
    l.foldl (fun s j => colStep m j s) (M, 0) = (M, 0) := by
  induction l with
  | nil => rfl
  | cons j js ih =>
      have hfind : (List.range m).find? (fun k => decide ((0 : Nat) ≤ k) && M k j) = none := by
        apply List.find?_eq_none.mpr
        intro k hk
        rw [List.mem_range] at hk
        simp [h j (by simp) k hk]
      have hstep : colStep m j (M, 0) = (M, 0) := by
        unfold colStep
        simp only []
        rw [hfind]
      rw [List.foldl_cons, hstep]
      exact ih (fun j' hj' => h j' (List.mem_cons_of_mem _ hj'))

theorem colStep_single_pivot (j : Nat) (M : Nat → Row) (hM : M 0 j = true) :
    ((colStep 1 j (M, 0)).1) 0 = M 0 := by
  unfold colStep
  have hfind : (List.range 1).find? (fun k => decide ((0 : Nat) ≤ k) && M k j) = some 0 := by
    have : List.range 1 = [0] := rfl
    rw [this]
    simp [List.find?, hM]
  simp only []
  rw [hfind]
  simp [swapRows]

/-- An all-zero coefficient row with target bit 1 (for instance the encoded
sample `1`) is reported as an inconsistent equation by
`MatrixSolver::independent` whenever the independent prefix is empty. -/
theorem independent_error_of_eRow (W : Nat) (s : MatrixSolver) (row : Nat)
    (hir : s.independent_rows = 0)
    (hrow : ∀ c, c < W → getRow s.contents row c = false)
    (htar : getTarget s.targets row = true) :
    MatrixSolver.independent W s row = .error () := by
  unfold MatrixSolver.independent
  have hE : augCopy W s row
      = fun _ c => if c < W then false else if c = W then true else false := by
    funext i c
    unfold augCopy
    rw [hir]
    simp only [Nat.not_lt_zero, if_false]
    by_cases hc : c < W
    · simp [hc, hrow c hc]
    · by_cases hc2 : c = W
      · simp [hc, hc2, htar]
      · simp [hc, hc2]
  simp only [hir, Nat.zero_add, hE]
  unfold elimLoop
  rw [List.range_succ, List.foldl_append]
  rw [fold_colStep_id 1 _ (List.range W) (by
    intro j hj k hk
    rw [List.mem_range] at hj
    simp [hj])]
  rw [List.foldl_cons, List.foldl_nil]
  rw [colStep_single_pivot W _ (by simp)]
  have hone : one_vector (W + 1)
      (fun c => if c < W then false else if c = W then true else false) = true := by
    unfold one_vector
    simp only [Nat.add_sub_cancel]
    rw [Bool.and_eq_true]
    constructor
    · rw [List.all_eq_true]
      intro i hi
      rw [List.mem_range] at hi
      simp [hi]
    · simp
  rw [hone]
  rfl

/-- Submitting the encoded sample `1` throws while the prefix is empty; the
state keeps its (zero) rank and its row/target lists stay aligned. -/
theorem addRowEncoded_one (W : Nat) (s : MatrixSolver) (h : s.independent_rows = 0)
    (hlen : s.targets.length = s.contents.length) :
    (MatrixSolver.addRowEncoded W s 1).2 = true ∧
    (MatrixSolver.addRowEncoded W s 1).1.independent_rows = 0 ∧
    (MatrixSolver.addRowEncoded W s 1).1.targets.length
      = (MatrixSolver.addRowEncoded W s 1).1.contents.length := by
  unfold MatrixSolver.addRowEncoded MatrixSolver.addRow
  have herr : MatrixSolver.independent W
      ⟨s.independent_rows, s.contents ++ [encRow W 1], s.targets ++ [Nat.testBit 1 0]⟩
      ((s.contents ++ [encRow W 1]).length - 1) = .error () := by
    apply independent_error_of_eRow
    · exact h
    · intro c hc
      have hlen2 : (s.contents ++ [encRow W 1]).length - 1 = s.contents.length := by
        simp
      rw [hlen2]
      unfold getRow
      rw [getD_concat_self]
      unfold encRow
      rw [if_pos hc]
      exact testBit_high_false (W := 1) (by norm_num) (by omega)
    · have hlen2 : (s.contents ++ [encRow W 1]).length - 1 = s.targets.length := by
        simp [hlen]
      rw [hlen2]
      unfold getTarget
      rw [getD_concat_self]
      rfl
  simp only []
  rw [herr]
  refine ⟨rfl, h, ?_⟩
  simp [hlen]

/-- With a sample stream that always returns the encoded equation `1`, every
iteration of the loop discards the sample as inconsistent: the run never
produces a verdict, whatever allowance of retries the model grants. -/
theorem detect_const_one (W : Nat) (f : Nat → Nat) (u : Nat) :
    ∀ fuel pos budget rf solver, fuel = (budget + 1) + rf →
      solver.independent_rows = 0 → solver.targets.length = solver.contents.length →
      (detectGo W f (fun _ => 1) u fuel pos (budget + 1) rf solver).verdict = none := by
  intro fuel
  induction fuel with
  | zero =>
      intro pos budget rf solver hf
      omega
  | succ fuel ih =>
      intro pos budget rf solver hf hir hlen
      obtain ⟨hp, hir', hlen'⟩ := addRowEncoded_one W solver hir hlen
      match rf with
      | 0 =>
          rw [detectGo.eq_3]
          simp [hp]
      | rf + 1 =>
          rw [detectGo.eq_4]
          simp only [hp, if_true]
          exact ih (pos + 1) budget rf _ (by omega) hir' hlen'

/-- C7: the controller's budget policy.  (1) When the success budget is
exhausted (all `2*Bits` successful attempts consumed without the rank check
firing) the run terminates with the Feistel verdict.  (2) A sample discarded
as inconsistent leaves the remaining budget untouched.  (3) Any run ending in
the budget verdict consumed exactly `budget` successful samples: its sampling
calls are the budget plus the discarded inconsistent ones, which were not
counted. -/
theorem claim_C7 (W : Nat) (f : Nat → Nat) (stream : Nat → Nat) (u : Nat)
    (pos budget rf : Nat) (solver : MatrixSolver) :
    (detectLoop W f stream u pos 0 rf solver).verdict = some Verdict.feistelBudget
    ∧ ((MatrixSolver.addRowEncoded W solver (stream pos)).2 = true →
        (detectLoop W f stream u pos (budget + 1) (rf + 1) solver).verdict
          = (detectLoop W f stream u (pos + 1) (budget + 1) rf
              (MatrixSolver.addRowEncoded W solver (stream pos)).1).verdict)
    ∧ ((detectLoop W f stream u pos budget rf solver).verdict
          = some Verdict.feistelBudget →
        (detectLoop W f stream u pos budget rf solver).samples
          = budget + (detectLoop W f stream u pos budget rf solver).rejects) := by
  refine ⟨?_, ?_, ?_⟩
  · simp [detectLoop, detectGo.eq_1]
  · intro hp
    unfold detectLoop
    have hfe : budget + 1 + (rf + 1) = (budget + 1 + rf) + 1 := rfl
    rw [hfe, detectGo.eq_4]
    simp [hp]
  · exact detectGo_budget_count W f stream u (budget + rf) pos budget rf solver rfl

/-- C7, witness: a rejected sample (`stream ≡ 1` on an empty solver) keeps the
budget, and a budget-exhausting run (`stream ≡ 0`, whose all-zero redundant
equations never raise the rank) consumes exactly its budget of successes. -/
theorem claim_C7_witness :
    ((detectLoop 3 id (fun _ => 1) 0 0 (5 + 1) (0 + 1) MatrixSolver.empty).verdict
        = (detectLoop 3 id (fun _ => 1) 0 1 (5 + 1) 0
            (MatrixSolver.addRowEncoded 3 MatrixSolver.empty 1).1).verdict)
    ∧ ((detectLoop 3 id (fun _ => 0) 0 0 6 2 MatrixSolver.empty).samples
        = 6 + (detectLoop 3 id (fun _ => 0) 0 0 6 2 MatrixSolver.empty).rejects) :=
  ⟨(claim_C7 3 id (fun _ => 1) 0 0 5 0 MatrixSolver.empty).2.1 (by decide),
   (claim_C7 3 id (fun _ => 0) 0 0 6 2 MatrixSolver.empty).2.2 (by decide)⟩

/-- Divergence of the concrete detection run on the constant stream of the
encoded sample `1` at `Bits = 3`: whatever allowance of discarded samples the
model grants, the run exhausts it without reaching a verdict — the C++ loop,
which has no such allowance, retries forever. -/
def DetectRunsForever : Prop :=
  ∀ rf : Nat, (run_feistel_detect 3 id 0 0 (fun _ => 1) 0 rf).verdict = none

/-- C8, counterexample: the claim asserts termination for *every* sequence of
sampler results, but the `--i` retry is unbounded: on the constant stream of
the encoded sample `1` (inconsistent at every state) the loop never reaches a
verdict, no matter how many discarded samples the model allows. -/
theorem claim_C8_counterexample : DetectRunsForever := by
  intro rf
  unfold run_feistel_detect detectLoop
  exact detect_const_one 3 _ 0 (2 * 3 + rf) 0 5 rf MatrixSolver.empty (by omega) rfl rfl

/-- C8, amended: the sampling loop is bounded *except for* the
inconsistent-equation retries: a run allowed `rf` discarded samples makes at
most `2*Bits + rf` sampling calls, and a run that fails to reach any verdict
has discarded more inconsistent samples than that allowance (so only an
unbounded stream of inconsistent samples prevents termination). -/
theorem claim_C8_amended (W : Nat) (f : Nat → Nat) (stream : Nat → Nat) (u : Nat)
    (pos budget rf : Nat) (solver : MatrixSolver) :
    (detectLoop W f stream u pos budget rf solver).samples ≤ budget + rf
    ∧ ((detectLoop W f stream u pos budget rf solver).verdict = none →
        (detectLoop W f stream u pos budget rf solver).rejects = rf + 1) :=
  detectGo_bounded W f stream u (budget + rf) pos budget rf solver rfl

/-- C8, witness for the amended theorem: on the all-inconsistent stream with
allowance 1, the run makes at most 7 sampling calls and, having produced no
verdict, discarded 2 samples. -/
theorem claim_C8_amended_witness :
    (detectLoop 3 id (fun _ => 1) 0 0 6 1 MatrixSolver.empty).samples ≤ 6 + 1
    ∧ (detectLoop 3 id (fun _ => 1) 0 0 6 1 MatrixSolver.empty).rejects = 1 + 1 :=
  ⟨(claim_C8_amended 3 id (fun _ => 1) 0 0 6 1 MatrixSolver.empty).1,
   (claim_C8_amended 3 id (fun _ => 1) 0 0 6 1 MatrixSolver.empty).2 (by decide)⟩

/-! ## GF(2) semantics of the solver: bridge from boolean registers to
`ZMod 2` vectors -/

/-- A boolean as an element of GF(2). -/
def b2z (b : Bool) : ZMod 2 := if b then 1 else 0

/-- The first `n` entries of a register as a GF(2) vector. -/
def bvec (n : Nat) (r : Row) : Fin n → ZMod 2 := fun i => b2z (r i.val)

theorem b2z_xor (a b : Bool) : b2z (xor a b) = b2z a + b2z b := by
  cases a <;> cases b <;> decide

theorem b2z_eq_zero {a : Bool} : b2z a = 0 ↔ a = false := by
  cases a <;> decide

theorem b2z_eq_one {a : Bool} : b2z a = 1 ↔ a = true := by
  cases a <;> decide

theorem b2z_and (a b : Bool) : b2z (a && b) = b2z a * b2z b := by
  cases a <;> cases b <;> decide

theorem zmod2_add_self (a : ZMod 2) : a + a = 0 := by
  revert a; decide

theorem zmod2_cases (a : ZMod 2) : a = 0 ∨ a = 1 := by
  revert a; decide

theorem vec_add_self {n : Nat} (x : Fin n → ZMod 2) : x + x = 0 := by
  funext c
  exact zmod2_add_self (x c)

theorem bvec_xor (n : Nat) (a b : Row) :
    bvec n (xor_vectors a b) = bvec n a + bvec n b := by
  funext c
  exact b2z_xor (a c.val) (b c.val)

theorem bvec_eq_zero_iff {n : Nat} (r : Row) :
    bvec n r = 0 ↔ ∀ c, c < n → r c = false := by
  constructor
  · intro h c hc
    have := congrFun h ⟨c, hc⟩
    exact b2z_eq_zero.mp this
  · intro h
    funext c
    exact b2z_eq_zero.mpr (h c.val c.isLt)

theorem zero_vector_iff (n : Nat) (r : Row) :
    zero_vector n r = true ↔ bvec n r = 0 := by
  unfold zero_vector
  rw [List.all_eq_true, bvec_eq_zero_iff]
  constructor
  · intro h c hc
    have := h c (List.mem_range.mpr hc)
    simpa using this
  · intro h c hc
    simp [h c (List.mem_range.mp hc)]

/-- The family of GF(2) vectors formed by the first `m` rows of a
function-represented matrix, read over `n` columns. -/
def fam (m n : Nat) (M : Nat → Row) : Fin m → (Fin n → ZMod 2) :=
  fun i => bvec n (M i.val)

/-- The GF(2) row space of the first `m` rows. -/
def sp (m n : Nat) (M : Nat → Row) : Submodule (ZMod 2) (Fin n → ZMod 2) :=
  Submodule.span (ZMod 2) (Set.range (fam m n M))

theorem span_range_eq_of_mem {V : Type} [AddCommGroup V] [Module (ZMod 2) V]
    {ι : Type} (v w : ι → V)
    (h1 : ∀ i, w i ∈ Submodule.span (ZMod 2) (Set.range v))
    (h2 : ∀ i, v i ∈ Submodule.span (ZMod 2) (Set.range w)) :
    Submodule.span (ZMod 2) (Set.range w) = Submodule.span (ZMod 2) (Set.range v) := by
  apply le_antisymm
  · rw [Submodule.span_le]
    rintro x ⟨i, rfl⟩
    exact h1 i
  · rw [Submodule.span_le]
    rintro x ⟨i, rfl⟩
    exact h2 i

theorem sp_swap (m n : Nat) (M : Nat → Row) {k o : Nat} (hk : k < m) (ho : o < m) :
    sp m n (swapRows M k o) = sp m n M := by
  unfold sp
  have hco : fam m n (swapRows M k o) = fam m n M ∘ (Equiv.swap ⟨k, hk⟩ ⟨o, ho⟩) := by
    funext i
    show bvec n (swapRows M k o i.val) = fam m n M ((Equiv.swap ⟨k, hk⟩ ⟨o, ho⟩) i)
    unfold swapRows fam
    rw [Equiv.swap_apply_def]
    by_cases h1 : i.val = k
    · have : i = ⟨k, hk⟩ := Fin.ext h1
      simp [h1, this]
    · by_cases h2 : i.val = o
      · have hio : i = ⟨o, ho⟩ := Fin.ext h2
        have hik : ¬ (i = ⟨k, hk⟩) := by
          intro hcon; exact h1 (by rw [hcon])
        simp only [h1, h2, hio, hik, if_false, if_true]
        by_cases h3 : o = k <;> simp [h3]
      · have hik : ¬ (i = ⟨k, hk⟩) := by
          intro hcon; exact h1 (by rw [hcon])
        have hio : ¬ (i = ⟨o, ho⟩) := by
          intro hcon; exact h2 (by rw [hcon])
        simp [h1, h2, hik, hio]
  rw [hco, Set.range_comp, Equiv.range_eq_univ, Set.image_univ]

theorem sp_xor_pass (m n : Nat) (M : Nat → Row) {o : Nat} (ho : o < m) (cond : Nat → Bool)
    (hcondo : cond o = false) :
    sp m n (fun t => if cond t then xor_vectors (M t) (M o) else M t) = sp m n M := by
  unfold sp
  apply span_range_eq_of_mem
  · intro i
    show bvec n (if cond i.val then xor_vectors (M i.val) (M o) else M i.val)
      ∈ Submodule.span (ZMod 2) (Set.range (fam m n M))
    by_cases hc : cond i.val
    · rw [if_pos hc, bvec_xor]
      exact add_mem (Submodule.subset_span ⟨i, rfl⟩) (Submodule.subset_span ⟨⟨o, ho⟩, rfl⟩)
    · rw [if_neg hc]
      exact Submodule.subset_span ⟨i, rfl⟩
  · intro i
    set M2 : Nat → Row := fun t => if cond t then xor_vectors (M t) (M o) else M t with hM2
    have h1 : fam m n M2 ⟨o, ho⟩ = bvec n (M o) := by
      show bvec n (M2 o) = bvec n (M o)
      rw [hM2]
      simp [hcondo]
    by_cases hc : cond i.val
    · have h2 : fam m n M2 i = bvec n (M i.val) + bvec n (M o) := by
        show bvec n (M2 i.val) = _
        rw [hM2]
        simp only [hc, if_true]
        exact bvec_xor n _ _
      have h3 : fam m n M i = fam m n M2 i + fam m n M2 ⟨o, ho⟩ := by
        rw [h1, h2, add_assoc, vec_add_self, add_zero]
        rfl
      rw [h3]
      exact add_mem (Submodule.subset_span ⟨i, rfl⟩) (Submodule.subset_span ⟨⟨o, ho⟩, rfl⟩)
    · have h2 : fam m n M i = fam m n M2 i := by
        show bvec n (M i.val) = bvec n (M2 i.val)
        rw [hM2]
        simp [hc]
      rw [h2]
      exact Submodule.subset_span ⟨i, rfl⟩

theorem colStep_eq_none {m j : Nat} {M : Nat → Row} {o : Nat}
    (h : (List.range m).find? (fun k => decide (o ≤ k) && M k j) = none) :
    colStep m j (M, o) = (M, o) := by
  unfold colStep
  simp only [h]

theorem colStep_eq_some {m j : Nat} {M : Nat → Row} {o k : Nat}
    (h : (List.range m).find? (fun k => decide (o ≤ k) && M k j) = some k) :
    colStep m j (M, o) =
      (fun t => if decide (o + 1 ≤ t) && decide (t < m) && swapRows M k o t j
            && swapRows M k o o j then
          xor_vectors (swapRows M k o t) (swapRows M k o o) else swapRows M k o t,
       o + 1) := by
  unfold colStep
  simp only [h]

/-- Loop invariant of the column elimination inside `MatrixSolver::independent`
after processing columns `0..j-1`: the row space of the `m`-row working copy
is unchanged, rows at or below the offset are zero on the processed columns,
and the rows above the offset form an echelon: each has a pivot column
(strictly increasing, within the processed range) holding its leading 1, with
every other row below it zero in that column. -/
structure ElimInv (m n j : Nat) (M0 : Nat → Row) (st : (Nat → Row) × Nat) : Prop where
  span_eq : sp m n st.1 = sp m n M0
  off_le_m : st.2 ≤ m
  off_le_j : st.2 ≤ j
  tail_zero : ∀ t, st.2 ≤ t → t < m → ∀ c, c < j → st.1 t c = false
  pivots : ∃ p : Nat → Nat,
    (∀ a b, a < b → b < st.2 → p a < p b) ∧
    ∀ i, i < st.2 → p i < j ∧ st.1 i (p i) = true ∧
      (∀ c, c < p i → st.1 i c = false) ∧
      (∀ t, i < t → t < m → st.1 t (p i) = false)

theorem colStep_inv {m n j : Nat} {M0 : Nat → Row} (st : (Nat → Row) × Nat)
    (h : ElimInv m n j M0 st) : ElimInv m n (j + 1) M0 (colStep m j st) := by
  obtain ⟨M, o⟩ := st
  obtain ⟨hsp0, hom0, hoj0, htz0, p, hpmono0, hpiv0⟩ := h
  have hsp : sp m n M = sp m n M0 := hsp0
  have hom : o ≤ m := hom0
  have hoj : o ≤ j := hoj0
  have htz : ∀ t, o ≤ t → t < m → ∀ c, c < j → M t c = false := htz0
  have hpmono : ∀ a b, a < b → b < o → p a < p b := hpmono0
  have hpiv : ∀ i, i < o → p i < j ∧ M i (p i) = true ∧
      (∀ c, c < p i → M i c = false) ∧
      (∀ t, i < t → t < m → M t (p i) = false) := hpiv0
  clear hsp0 hom0 hoj0 htz0 hpmono0 hpiv0
  rcases hfind : (List.range m).find? (fun k => decide (o ≤ k) && M k j) with _ | k
  · -- no pivot in column j: every row at or below the offset is 0 there
    rw [colStep_eq_none hfind]
    have hnone : ∀ t, o ≤ t → t < m → M t j = false := by
      intro t hot htm
      have := List.find?_eq_none.mp hfind t (List.mem_range.mpr htm)
      simpa [hot] using this
    refine ⟨hsp, hom, by omega, ?_, p, hpmono, ?_⟩
    · intro t hot htm c hc
      rcases Nat.lt_or_ge c j with h1 | h1
      · exact htz t hot htm c h1
      · have hcj : c = j := by omega
        rw [hcj]
        exact hnone t hot htm
    · intro i hi
      obtain ⟨h1, h2, h3, h4⟩ := hpiv i hi
      exact ⟨by omega, h2, h3, h4⟩
  · -- pivot found at row k: swap it to the offset and clear column j below
    rw [colStep_eq_some hfind]
    have hkp := List.find?_some hfind
    rw [Bool.and_eq_true] at hkp
    have hkm : k < m := List.mem_range.mp (List.mem_of_find?_eq_some hfind)
    have hok : o ≤ k := by
      have := hkp.1
      simpa using this
    have hMkj : M k j = true := hkp.2
    have homlt : o < m := Nat.lt_of_le_of_lt hok hkm
    have hM1o : swapRows M k o o = M k := by
      unfold swapRows
      by_cases hc : o = k
      · rw [if_pos hc, hc]
      · rw [if_neg hc, if_pos rfl]
    have hM1oj : swapRows M k o o j = true := by rw [hM1o]; exact hMkj
    have hM1lo : ∀ i, i < o → swapRows M k o i = M i := by
      intro i hi
      unfold swapRows
      have h1 : ¬ (i = k) := by omega
      have h2 : ¬ (i = o) := by omega
      rw [if_neg h1, if_neg h2]
    have hM1mem : ∀ t, swapRows M k o t = M t ∨ swapRows M k o t = M k ∨
        swapRows M k o t = M o := by
      intro t
      unfold swapRows
      by_cases h1 : t = k
      · rw [if_pos h1]
        right; right; rfl
      · rw [if_neg h1]
        by_cases h2 : t = o
        · rw [if_pos h2]
          right; left; rfl
        · rw [if_neg h2]
          left; rfl
    have hM1hi : ∀ t, o ≤ t → t < m → ∀ c, c < j → swapRows M k o t c = false := by
      intro t hot htm c hc
      rcases hM1mem t with h1 | h1 | h1 <;> rw [h1]
      · exact htz t hot htm c hc
      · exact htz k hok hkm c hc
      · exact htz o (le_refl o) homlt c hc
    constructor
    case span_eq =>
      show sp m n _ = sp m n M0
      rw [sp_xor_pass m n (swapRows M k o) homlt _ (by simp), sp_swap m n M hkm homlt, hsp]
    case off_le_m => exact homlt
    case off_le_j => omega
    case tail_zero =>
      intro t hot htm c hc
      replace hot : o + 1 ≤ t := hot
      show (if _ then xor_vectors _ _ else _) c = false
      rcases Nat.lt_or_ge c j with h1 | h1
      · split
        · unfold xor_vectors
          rw [hM1hi t (by omega) htm c h1, hM1hi o (le_refl o) homlt c h1]
          rfl
        · exact hM1hi t (by omega) htm c h1
      · have hcj : c = j := by omega
        rw [hcj]
        by_cases hbit : swapRows M k o t j = true
        · have hcond : (decide (o + 1 ≤ t) && decide (t < m) && swapRows M k o t j
              && swapRows M k o o j) = true := by
            simp [hot, htm, hbit, hM1oj]
          rw [if_pos hcond]
          unfold xor_vectors
          rw [hbit, hM1oj]
          rfl
        · have hbit' : swapRows M k o t j = false := by
            simpa using hbit
          split
          · rename_i hcond
            rw [Bool.and_eq_true, Bool.and_eq_true, Bool.and_eq_true] at hcond
            exact absurd hcond.1.2 (by simp [hbit'])
          · exact hbit'
    case pivots =>
      refine ⟨fun i => if i = o then j else p i, ?_, ?_⟩
      · intro a b hab hb
        replace hb : b < o + 1 := hb
        by_cases hbo : b = o
        · have ha : a < o := by omega
          have hao : ¬ (a = o) := by omega
          simp only [hao, if_false, hbo, eq_self_iff_true, if_true]
          exact (hpiv a ha).1
        · have hb' : b < o := by omega
          have hao : ¬ (a = o) := by omega
          simp only [hao, hbo, if_false]
          exact hpmono a b hab hb'
      · intro i hi
        replace hi : i < o + 1 := hi
        by_cases hio : i = o
        · simp only [hio, eq_self_iff_true, if_true]
          refine ⟨by omega, ?_, ?_, ?_⟩
          · show (if _ then xor_vectors _ _ else _) j = true
            have hnc : ¬ (decide (o + 1 ≤ o) && decide (o < m) && swapRows M k o o j
                && swapRows M k o o j) = true := by
              simp
            rw [if_neg hnc]
            exact hM1oj
          · intro c hc
            show (if _ then xor_vectors _ _ else _) c = false
            have hnc : ¬ (decide (o + 1 ≤ o) && decide (o < m) && swapRows M k o o j
                && swapRows M k o o j) = true := by
              simp
            rw [if_neg hnc, hM1o]
            exact htz k hok hkm c (by omega)
          · intro t hti htm
            replace hti : o + 1 ≤ t := hti
            show (if _ then xor_vectors _ _ else _) j = false
            by_cases hbit : swapRows M k o t j = true
            · have hcond : (decide (o + 1 ≤ t) && decide (t < m) && swapRows M k o t j
                  && swapRows M k o o j) = true := by
                simp [hti, htm, hbit, hM1oj]
              rw [if_pos hcond]
              unfold xor_vectors
              rw [hbit, hM1oj]
              rfl
            · have hbit' : swapRows M k o t j = false := by simpa using hbit
              split
              · rename_i hcond
                rw [Bool.and_eq_true, Bool.and_eq_true, Bool.and_eq_true] at hcond
                exact absurd hcond.1.2 (by simp [hbit'])
              · exact hbit'
        · have hi' : i < o := by omega
          obtain ⟨hp1, hp2, hp3, hp4⟩ := hpiv i hi'
          simp only [hio, if_false]
          have hrow : ∀ c, (if decide (o + 1 ≤ i) && decide (i < m) && swapRows M k o i j
              && swapRows M k o o j then xor_vectors (swapRows M k o i) (swapRows M k o o)
              else swapRows M k o i) c = M i c := by
            intro c
            have hnc : ¬ (decide (o + 1 ≤ i) && decide (i < m) && swapRows M k o i j
                && swapRows M k o o j) = true := by
              have : ¬ (o + 1 ≤ i) := by omega
              simp [this]
            rw [if_neg hnc, hM1lo i hi']
          have hM1z : ∀ t', i < t' → t' < m → swapRows M k o t' (p i) = false := by
            intro t' h1 h2
            rcases hM1mem t' with he | he | he <;> rw [he]
            · exact hp4 t' h1 h2
            · exact hp4 k (by omega) hkm
            · exact hp4 o (by omega) homlt
          refine ⟨by omega, ?_, ?_, ?_⟩
          · show (if _ then xor_vectors _ _ else _) (p i) = true
            rw [hrow (p i)]
            exact hp2
          · intro c hc
            show (if _ then xor_vectors _ _ else _) c = false
            rw [hrow c]
            exact hp3 c hc
          · intro t hti htm
            show (if _ then xor_vectors _ _ else _) (p i) = false
            split
            · unfold xor_vectors
              rw [hM1z t hti htm, hM1o, hp4 k (by omega) hkm]
              rfl
            · exact hM1z t hti htm

/-- The elimination invariant after processing the first `j` columns. -/
theorem elimPart_inv (m n : Nat) (M0 : Nat → Row) :
    ∀ j, ElimInv m n j M0 ((List.range j).foldl (fun s c => colStep m c s) (M0, 0)) := by
  intro j
  induction j with
  | zero =>
      show ElimInv m n 0 M0 (M0, 0)
      exact ⟨rfl, by omega, by omega, by omega, fun _ => 0, by omega, by omega⟩
  | succ j ih =>
      rw [List.range_succ, List.foldl_append, List.foldl_cons, List.foldl_nil]
      exact colStep_inv _ ih

/-- The elimination invariant holds for the fully processed matrix. -/
theorem elimLoop_inv (m n : Nat) (M0 : Nat → Row) :
    ElimInv m n n M0 (elimLoop m n M0) :=
  elimPart_inv m n M0 n

theorem sum_apply_coord {m n : Nat} (M : Nat → Row) (g : Fin m → ZMod 2) (c : Fin n) :
    (∑ j, g j • fam m n M j) c = ∑ j, g j * b2z (M j.val c.val) := by
  rw [Finset.sum_apply]
  simp only [Pi.smul_apply, smul_eq_mul]
  rfl

theorem sum_eval_pivot {m n : Nat} (M : Nat → Row) (g : Fin m → ZMod 2) (i : Fin m)
    (c : Fin n) (hMi : M i.val c.val = true)
    (hzero : ∀ j : Fin m, j ≠ i → g j * b2z (M j.val c.val) = 0) :
    (∑ j, g j • fam m n M j) c = g i := by
  rw [sum_apply_coord]
  rw [Finset.sum_eq_single i]
  · rw [hMi]
    simp [b2z]
  · intro j _ hj
    exact hzero j hj
  · intro h
    exact absurd (Finset.mem_univ i) h

/-- A family in full echelon form (strictly increasing pivot columns, each
holding the only 1 of its column among the rows below) is linearly
independent. -/
theorem echelon_indep {m n : Nat} (M : Nat → Row) (p : Nat → Nat)
    (hpmono : ∀ a b, a < b → b < m → p a < p b)
    (hpiv : ∀ i, i < m → p i < n ∧ M i (p i) = true ∧
      (∀ c, c < p i → M i c = false) ∧
      (∀ t, i < t → t < m → M t (p i) = false)) :
    LinearIndependent (ZMod 2) (fam m n M) := by
  rw [Fintype.linearIndependent_iff]
  intro g hg
  intro i0
  -- show every coefficient vanishes, by strong induction on the row index
  have main : ∀ i : Nat, ∀ hi : i < m, g ⟨i, hi⟩ = 0 := by
    intro i
    induction i using Nat.strong_induction_on with
    | _ i ih =>
        intro hi
        obtain ⟨hp1, hp2, _, hp4⟩ := hpiv i hi
        have heval := sum_eval_pivot M g ⟨i, hi⟩ ⟨p i, hp1⟩ hp2 (by
          intro j hj
          rcases Nat.lt_or_ge j.val i with h1 | h1
          · have hzj : g j = 0 := by
              have := ih j.val h1 j.isLt
              rwa [Fin.eta] at this
            rw [hzj, zero_mul]
          · have h2 : i < j.val := by
              rcases Nat.lt_or_ge i j.val with h3 | h3
              · exact h3
              · have h4 : j.val = i := by omega
                exact absurd (Fin.ext (show j.val = (⟨i, hi⟩ : Fin m).val from h4)) hj
            rw [hp4 j.val h2 j.isLt]
            simp [b2z])
        rw [hg] at heval
        simpa using heval.symm
  have := main i0.val i0.isLt
  rwa [Fin.eta] at this

theorem indep_iff_of_span_eq {m n : Nat} (v w : Fin m → (Fin n → ZMod 2))
    (h : Submodule.span (ZMod 2) (Set.range v) = Submodule.span (ZMod 2) (Set.range w)) :
    LinearIndependent (ZMod 2) v ↔ LinearIndependent (ZMod 2) w := by
  rw [linearIndependent_iff_card_eq_finrank_span, linearIndependent_iff_card_eq_finrank_span]
  unfold Set.finrank
  rw [h]

/-- The augmented unit vector `0 ... 0 1` (1 in the last of `n` columns). -/
def eVec (n : Nat) : Fin n → ZMod 2 := fun c => if c.val = n - 1 then 1 else 0

theorem zmod2_mul_eq_one {a b : ZMod 2} (h : a * b = 1) : a = 1 ∧ b = 1 := by
  revert a b; decide

/-- After the elimination, the final row of the copy is all-zero exactly when
the original rows were linearly dependent. -/
theorem elim_zero_iff (m n : Nat) (M0 : Nat → Row) (hm : 1 ≤ m) :
    zero_vector n ((elimLoop m n M0).1 (m - 1)) = true ↔
      ¬ LinearIndependent (ZMod 2) (fam m n M0) := by
  obtain ⟨hsp, hom, _, htz, p, hpmono, hpiv⟩ := elimLoop_inv m n M0
  have htrans : LinearIndependent (ZMod 2) (fam m n (elimLoop m n M0).1)
      ↔ LinearIndependent (ZMod 2) (fam m n M0) :=
    indep_iff_of_span_eq _ _ hsp
  rcases Nat.lt_or_ge (elimLoop m n M0).2 m with hocase | hocase
  · have hz : ∀ c, c < n → (elimLoop m n M0).1 (m - 1) c = false :=
      fun c hc => htz (m - 1) (by omega) (by omega) c hc
    have hzv : zero_vector n ((elimLoop m n M0).1 (m - 1)) = true := by
      rw [zero_vector_iff]
      exact (bvec_eq_zero_iff _).mpr hz
    rw [hzv]
    have hnind : ¬ LinearIndependent (ZMod 2) (fam m n (elimLoop m n M0).1) := by
      intro hind
      have := hind.ne_zero ⟨m - 1, by omega⟩
      exact this ((bvec_eq_zero_iff _).mpr hz)
    simp only [true_iff]
    exact fun hcon => hnind (htrans.mpr hcon)
  · have ho' : (elimLoop m n M0).2 = m := by omega
    have hind : LinearIndependent (ZMod 2) (fam m n (elimLoop m n M0).1) := by
      apply echelon_indep _ p
      · intro a b hab hb
        exact hpmono a b hab (by omega)
      · intro i hi
        exact hpiv i (by omega)
    obtain ⟨hp1, hp2, _, _⟩ := hpiv (m - 1) (by omega)
    have hzf : zero_vector n ((elimLoop m n M0).1 (m - 1)) = false := by
      rcases hh : zero_vector n ((elimLoop m n M0).1 (m - 1)) with _ | _
      · rfl
      · rw [zero_vector_iff] at hh
        have := (bvec_eq_zero_iff _).mp hh (p (m - 1)) hp1
        rw [hp2] at this
        cases this
    rw [hzf]
    constructor
    · intro h
      cases h
    · intro hcon
      exact absurd (htrans.mp hind) hcon

/-- After the elimination, the final row of the copy is the `0 = 1` row
exactly when the augmented unit vector lies in the row space and the original
rows were linearly independent. -/
theorem elim_one_iff (m n : Nat) (M0 : Nat → Row) (hm : 1 ≤ m) (hn : 1 ≤ n) :
    one_vector n ((elimLoop m n M0).1 (m - 1)) = true ↔
      (eVec n ∈ sp m n M0 ∧ LinearIndependent (ZMod 2) (fam m n M0)) := by
  obtain ⟨hsp, hom, _, htz, p, hpmono, hpiv⟩ := elimLoop_inv m n M0
  have htrans : LinearIndependent (ZMod 2) (fam m n (elimLoop m n M0).1)
      ↔ LinearIndependent (ZMod 2) (fam m n M0) :=
    indep_iff_of_span_eq _ _ hsp
  constructor
  · intro hone
    unfold one_vector at hone
    rw [Bool.and_eq_true, List.all_eq_true] at hone
    obtain ⟨hlow, hlast⟩ := hone
    have hbv : bvec n ((elimLoop m n M0).1 (m - 1)) = eVec n := by
      funext c
      unfold bvec eVec
      by_cases hc : c.val = n - 1
      · rw [if_pos hc, hc, hlast]
        rfl
      · have hc2 : c.val < n - 1 := by
          have := c.isLt
          omega
        have h5 := hlow c.val (List.mem_range.mpr hc2)
        rw [if_neg hc]
        have h6 : (elimLoop m n M0).1 (m - 1) c.val = false := by
          revert h5
          cases (elimLoop m n M0).1 (m - 1) c.val <;> simp
        rw [h6]
        rfl
    have hmem : eVec n ∈ sp m n M0 := by
      rw [← hsp]
      rw [← hbv]
      exact Submodule.subset_span ⟨⟨m - 1, by omega⟩, rfl⟩
    refine ⟨hmem, ?_⟩
    have ho' : (elimLoop m n M0).2 = m := by
      rcases Nat.lt_or_ge (elimLoop m n M0).2 m with hocase | hocase
      · exfalso
        have := htz (m - 1) (by omega) (by omega) (n - 1) (by omega)
        rw [hlast] at this
        cases this
      · omega
    apply htrans.mp
    apply echelon_indep _ p
    · intro a b hab hb
      exact hpmono a b hab (by omega)
    · intro i hi
      exact hpiv i (by omega)
  · rintro ⟨hmem, hind⟩
    have hindM : LinearIndependent (ZMod 2) (fam m n (elimLoop m n M0).1) := htrans.mpr hind
    have ho' : (elimLoop m n M0).2 = m := by
      rcases Nat.lt_or_ge (elimLoop m n M0).2 m with hocase | hocase
      · exfalso
        have hz : ∀ c, c < n → (elimLoop m n M0).1 (m - 1) c = false :=
          fun c hc => htz (m - 1) (by omega) (by omega) c hc
        have := hindM.ne_zero ⟨m - 1, by omega⟩
        exact this ((bvec_eq_zero_iff _).mpr hz)
      · omega
    rw [← hsp] at hmem
    unfold sp at hmem
    rw [mem_span_range_iff_exists_fun] at hmem
    obtain ⟨g, hgsum⟩ := hmem
    -- the coefficients of all rows before the last vanish
    have hlowzero : ∀ i : Nat, ∀ hi2 : i < m - 1, g ⟨i, by omega⟩ = 0 := by
      intro i
      induction i using Nat.strong_induction_on with
      | _ i ih =>
          intro hi2
          obtain ⟨hp1, hp2, _, hp4⟩ := hpiv i (by omega)
          have heval := sum_eval_pivot (elimLoop m n M0).1 g ⟨i, by omega⟩ ⟨p i, hp1⟩ hp2 (by
            intro j hj
            rcases Nat.lt_or_ge j.val i with h1 | h1
            · have hzj : g j = 0 := by
                have := ih j.val h1 (by omega)
                rwa [Fin.eta] at this
              rw [hzj, zero_mul]
            · have h2 : i < j.val := by
                rcases Nat.lt_or_ge i j.val with h3 | h3
                · exact h3
                · have h4 : j.val = i := by omega
                  exact absurd (Fin.ext (show j.val = (⟨i, by omega⟩ : Fin m).val from h4)) hj
              rw [hp4 j.val h2 j.isLt]
              simp [b2z])
          rw [hgsum] at heval
          have hpn : p i ≠ n - 1 := by
            have hmono := hpmono i (m - 1) hi2 (by omega)
            have := (hpiv (m - 1) (by omega)).1
            omega
          unfold eVec at heval
          rw [if_neg hpn] at heval
          exact heval.symm
    have hsingle : g ⟨m - 1, by omega⟩ • fam m n (elimLoop m n M0).1 ⟨m - 1, by omega⟩
        = eVec n := by
      rw [← hgsum, Finset.sum_eq_single (⟨m - 1, by omega⟩ : Fin m)]
      · intro j _ hj
        have hjlt : j.val < m - 1 := by
          have := j.isLt
          rcases Nat.lt_or_ge j.val (m - 1) with h1 | h1
          · exact h1
          · have h4 : j.val = m - 1 := by omega
            exact absurd (Fin.ext (show j.val = (⟨m - 1, by omega⟩ : Fin m).val from h4)) hj
        have hzj : g j = 0 := by
          have := hlowzero j.val hjlt
          rwa [Fin.eta] at this
        rw [hzj, zero_smul]
      · intro h
        exact absurd (Finset.mem_univ _) h
    have hglast : g ⟨m - 1, by omega⟩ * b2z ((elimLoop m n M0).1 (m - 1) (n - 1)) = 1 := by
      have := congrFun hsingle ⟨n - 1, by omega⟩
      unfold eVec at this
      rw [if_pos rfl] at this
      simpa [fam, bvec] using this
    obtain ⟨hg1, hb1⟩ := zmod2_mul_eq_one hglast
    have hfameq : fam m n (elimLoop m n M0).1 ⟨m - 1, by omega⟩ = eVec n := by
      rw [← hsingle, hg1, one_smul]
    unfold one_vector
    rw [Bool.and_eq_true, List.all_eq_true]
    constructor
    · intro c hc
      rw [List.mem_range] at hc
      have := congrFun hfameq ⟨c, by omega⟩
      unfold fam bvec eVec at this
      rw [if_neg (by omega : ¬ (c = n - 1))] at this
      rw [b2z_eq_zero.mp this]
      rfl
    · exact b2z_eq_one.mp hb1

/-! ## The `addRow` characterisation: span conditions on the independent
prefix -/

/-- The GF(2) coefficient rows of the solver's independent prefix. -/
def prefixFam (W : Nat) (s : MatrixSolver) : Fin s.independent_rows → (Fin W → ZMod 2) :=
  fun i => bvec W (getRow s.contents i.val)

/-- The GF(2) target bits of the solver's independent prefix. -/
def prefixTgt (s : MatrixSolver) : Fin s.independent_rows → ZMod 2 :=
  fun i => b2z (getTarget s.targets i.val)

/-- C5's invariant: the rows of the independent prefix are linearly
independent over GF(2). -/
def PrefixIndep (W : Nat) (s : MatrixSolver) : Prop :=
  LinearIndependent (ZMod 2) (prefixFam W s)

/-- The candidate's coefficient row is a combination of the prefix rows whose
implied target contradicts the candidate's target bit. -/
def SpanMismatch (W : Nat) (s : MatrixSolver) (row : Row) (t : Bool) : Prop :=
  ∃ g : Fin s.independent_rows → ZMod 2,
    (∑ i, g i • prefixFam W s i) = bvec W row ∧ (∑ i, g i * prefixTgt s i) ≠ b2z t

/-- The candidate's coefficient row is a combination of the prefix rows whose
implied target agrees with the candidate's target bit (a redundant equation). -/
def SpanMatch (W : Nat) (s : MatrixSolver) (row : Row) (t : Bool) : Prop :=
  ∃ g : Fin s.independent_rows → ZMod 2,
    (∑ i, g i • prefixFam W s i) = bvec W row ∧ (∑ i, g i * prefixTgt s i) = b2z t

/-- The state `addRow` pushes before testing independence. -/
def pushed (s : MatrixSolver) (row : Row) (t : Bool) : MatrixSolver :=
  ⟨s.independent_rows, s.contents ++ [row], s.targets ++ [t]⟩

theorem prefixIndep_le (W : Nat) (s : MatrixSolver) (h : PrefixIndep W s) :
    s.independent_rows ≤ s.contents.length := by
  by_contra hcon
  have hlen : s.contents.length < s.independent_rows := by omega
  have hzero : prefixFam W s ⟨s.contents.length, hlen⟩ = 0 := by
    unfold prefixFam getRow
    rw [List.getD_eq_default _ _ (le_refl _)]
    funext c
    rfl
  exact h.ne_zero ⟨s.contents.length, hlen⟩ hzero

theorem getD_append_left {α : Type} (l l' : List α) (i : Nat) (d : α) (h : i < l.length) :
    (l ++ l').getD i d = l.getD i d := by
  unfold List.getD
  rw [List.get?_append h]

theorem augCopy_pre (W : Nat) (s : MatrixSolver) (row : Row) (t : Bool) (i c : Nat)
    (hi : i < s.independent_rows) (hle : s.independent_rows ≤ s.contents.length)
    (hlen : s.targets.length = s.contents.length) :
    augCopy W (pushed s row t) ((pushed s row t).contents.length - 1) i c
      = if c < W then getRow s.contents i c
        else if c = W then getTarget s.targets i else false := by
  unfold augCopy pushed
  simp only []
  rw [if_pos hi]
  unfold getRow getTarget
  rw [getD_append_left _ _ i _ (by omega), getD_append_left _ _ i _ (by omega)]

theorem augCopy_cand (W : Nat) (s : MatrixSolver) (row : Row) (t : Bool) (i c : Nat)
    (hi : ¬ (i < s.independent_rows)) (hle : s.independent_rows ≤ s.contents.length)
    (hlen : s.targets.length = s.contents.length) :
    augCopy W (pushed s row t) ((pushed s row t).contents.length - 1) i c
      = if c < W then row c else if c = W then t else false := by
  unfold augCopy pushed
  simp only []
  rw [if_neg hi]
  unfold getRow getTarget
  have h1 : (s.contents ++ [row]).length - 1 = s.contents.length := by simp
  rw [h1]
  rw [getD_concat_self]
  have h2 : (s.targets ++ [t]).getD s.contents.length false = t := by
    rw [← hlen, getD_concat_self]
  rw [h2]

/-- The augmented working family checked by `addRow`: prefix rows with their
targets appended, plus the candidate row with its target appended. -/
def augA (W : Nat) (s : MatrixSolver) (row : Row) (t : Bool) :
    Fin (s.independent_rows + 1) → (Fin (W + 1) → ZMod 2) :=
  fam (s.independent_rows + 1) (W + 1)
    (augCopy W (pushed s row t) ((pushed s row t).contents.length - 1))

theorem augA_pre_coeff {W : Nat} {s : MatrixSolver} {row : Row} {t : Bool}
    (hle : s.independent_rows ≤ s.contents.length)
    (hlen : s.targets.length = s.contents.length)
    (i : Fin s.independent_rows) (c : Fin W) :
    augA W s row t (Fin.castSucc i) (Fin.castSucc c) = prefixFam W s i c := by
  unfold augA fam bvec
  simp only [Fin.coe_castSucc, Fin.val_last]
  rw [augCopy_pre W s row t i.val c.val i.isLt hle hlen]
  rw [if_pos c.isLt]
  rfl

theorem augA_pre_tgt {W : Nat} {s : MatrixSolver} {row : Row} {t : Bool}
    (hle : s.independent_rows ≤ s.contents.length)
    (hlen : s.targets.length = s.contents.length)
    (i : Fin s.independent_rows) :
    augA W s row t (Fin.castSucc i) (Fin.last W) = prefixTgt s i := by
  unfold augA fam bvec
  simp only [Fin.coe_castSucc, Fin.val_last]
  rw [augCopy_pre W s row t i.val W i.isLt hle hlen]
  rw [if_neg (by omega), if_pos rfl]
  rfl

theorem augA_cand_coeff {W : Nat} {s : MatrixSolver} {row : Row} {t : Bool}
    (hle : s.independent_rows ≤ s.contents.length)
    (hlen : s.targets.length = s.contents.length) (c : Fin W) :
    augA W s row t (Fin.last s.independent_rows) (Fin.castSucc c) = bvec W row c := by
  unfold augA fam bvec
  simp only [Fin.coe_castSucc, Fin.val_last]
  rw [augCopy_cand W s row t s.independent_rows c.val (by omega) hle hlen]
  rw [if_pos c.isLt]

theorem augA_cand_tgt {W : Nat} {s : MatrixSolver} {row : Row} {t : Bool}
    (hle : s.independent_rows ≤ s.contents.length)
    (hlen : s.targets.length = s.contents.length) :
    augA W s row t (Fin.last s.independent_rows) (Fin.last W) = b2z t := by
  unfold augA fam bvec
  simp only [Fin.coe_castSucc, Fin.val_last]
  rw [augCopy_cand W s row t s.independent_rows W (by omega) hle hlen]
  rw [if_neg (by omega), if_pos rfl]

theorem augA_sum_coeff {W : Nat} {s : MatrixSolver} {row : Row} {t : Bool}
    (hle : s.independent_rows ≤ s.contents.length)
    (hlen : s.targets.length = s.contents.length)
    (h : Fin (s.independent_rows + 1) → ZMod 2) (c : Fin W) :
    (∑ i, h i • augA W s row t i) (Fin.castSucc c)
      = (∑ i, h (Fin.castSucc i) • prefixFam W s i) c
        + h (Fin.last s.independent_rows) * bvec W row c := by
  rw [Finset.sum_apply, Finset.sum_apply]
  simp only [Pi.smul_apply, smul_eq_mul]
  rw [Fin.sum_univ_castSucc]
  congr 1
  · apply Finset.sum_congr rfl
    intro i _
    rw [augA_pre_coeff hle hlen i c]
  · rw [augA_cand_coeff hle hlen c]

theorem augA_sum_tgt {W : Nat} {s : MatrixSolver} {row : Row} {t : Bool}
    (hle : s.independent_rows ≤ s.contents.length)
    (hlen : s.targets.length = s.contents.length)
    (h : Fin (s.independent_rows + 1) → ZMod 2) :
    (∑ i, h i • augA W s row t i) (Fin.last W)
      = (∑ i, h (Fin.castSucc i) * prefixTgt s i)
        + h (Fin.last s.independent_rows) * b2z t := by
  rw [Finset.sum_apply]
  simp only [Pi.smul_apply, smul_eq_mul]
  rw [Fin.sum_univ_castSucc]
  congr 1
  · apply Finset.sum_congr rfl
    intro i _
    rw [augA_pre_tgt hle hlen i]
  · rw [augA_cand_tgt hle hlen]

theorem zmod2_ne_iff (a b : ZMod 2) : a ≠ b ↔ a + b = 1 := by
  revert a b; decide

theorem zmod2_add_eq_zero (a b : ZMod 2) : a + b = 0 ↔ a = b := by
  revert a b; decide

/-- Under an independent prefix, the augmented family (prefix plus candidate)
is linearly independent exactly when the candidate is *not* a redundant
combination of the prefix. -/
theorem augA_indep_iff {W : Nat} {s : MatrixSolver} {row : Row} {t : Bool}
    (hpre : PrefixIndep W s) (hlen : s.targets.length = s.contents.length) :
    LinearIndependent (ZMod 2) (augA W s row t) ↔ ¬ SpanMatch W s row t := by
  have hle := prefixIndep_le W s hpre
  constructor
  · intro hind ⟨g, hco, htg⟩
    have hsum : (∑ i, (Fin.snoc g 1 : Fin (s.independent_rows + 1) → ZMod 2) i
        • augA W s row t i) = 0 := by
      funext c
      induction c using Fin.lastCases with
      | last =>
          rw [augA_sum_tgt hle hlen]
          simp only [Fin.snoc_castSucc, Fin.snoc_last]
          rw [htg, one_mul, zmod2_add_self]
          rfl
      | cast c0 =>
          rw [augA_sum_coeff hle hlen]
          simp only [Fin.snoc_castSucc, Fin.snoc_last]
          have := congrFun hco c0
          rw [this, one_mul, zmod2_add_self]
          rfl
    have := Fintype.linearIndependent_iff.mp hind (Fin.snoc g 1) hsum
        (Fin.last s.independent_rows)
    rw [Fin.snoc_last] at this
    exact one_ne_zero this
  · intro hnm
    rw [Fintype.linearIndependent_iff]
    intro h hsum
    have ha := zmod2_cases (h (Fin.last s.independent_rows))
    rcases ha with ha | ha
    · -- candidate coefficient 0: the prefix combination itself vanishes
      have hg : ∀ i, h (Fin.castSucc i) = 0 := by
        have hzero : (∑ i, h (Fin.castSucc i) • prefixFam W s i) = 0 := by
          funext c
          have := congrFun hsum (Fin.castSucc c)
          rw [Pi.zero_apply] at this
          rw [augA_sum_coeff hle hlen, ha, zero_mul, add_zero] at this
          exact this
        exact fun i => Fintype.linearIndependent_iff.mp hpre _ hzero i
      intro i
      induction i using Fin.lastCases with
      | last => exact ha
      | cast i0 => exact hg i0
    · -- candidate coefficient 1: the prefix combination matches the candidate
      exfalso
      apply hnm
      refine ⟨fun i => h (Fin.castSucc i), ?_, ?_⟩
      · funext c
        have := congrFun hsum (Fin.castSucc c)
        rw [Pi.zero_apply] at this
        rw [augA_sum_coeff hle hlen, ha, one_mul] at this
        exact (zmod2_add_eq_zero _ _).mp this
      · have := congrFun hsum (Fin.last W)
        rw [Pi.zero_apply] at this
        rw [augA_sum_tgt hle hlen, ha, one_mul] at this
        exact (zmod2_add_eq_zero _ _).mp this

/-- Under an independent prefix, the `0 = 1` vector lies in the augmented row
space exactly when the candidate's coefficients are a prefix combination whose
implied target contradicts the candidate's target. -/
theorem augA_evec_iff {W : Nat} {s : MatrixSolver} {row : Row} {t : Bool}
    (hpre : PrefixIndep W s) (hlen : s.targets.length = s.contents.length) :
    eVec (W + 1) ∈ Submodule.span (ZMod 2) (Set.range (augA W s row t))
      ↔ SpanMismatch W s row t := by
  have hle := prefixIndep_le W s hpre
  have hcoeff0 : ∀ c : Fin W, eVec (W + 1) (Fin.castSucc c) = 0 := by
    intro c
    unfold eVec
    rw [if_neg (by
      rw [Fin.coe_castSucc]
      omega)]
  have htgt1 : eVec (W + 1) (Fin.last W) = 1 := by
    unfold eVec
    rw [if_pos (by rw [Fin.val_last]; omega)]
  constructor
  · intro hmem
    rw [mem_span_range_iff_exists_fun] at hmem
    obtain ⟨h, hsum⟩ := hmem
    have ha := zmod2_cases (h (Fin.last s.independent_rows))
    rcases ha with ha | ha
    · exfalso
      have hg : ∀ i, h (Fin.castSucc i) = 0 := by
        have hzero : (∑ i, h (Fin.castSucc i) • prefixFam W s i) = 0 := by
          funext c
          have := congrFun hsum (Fin.castSucc c)
          rw [augA_sum_coeff hle hlen, ha, zero_mul, add_zero] at this
          rw [this]
          exact (hcoeff0 c).symm ▸ rfl
        exact fun i => Fintype.linearIndependent_iff.mp hpre _ hzero i
      have := congrFun hsum (Fin.last W)
      rw [augA_sum_tgt hle hlen, ha, zero_mul, add_zero, htgt1] at this
      rw [Finset.sum_eq_zero (fun i _ => by rw [hg i, zero_mul])] at this
      exact zero_ne_one this
    · refine ⟨fun i => h (Fin.castSucc i), ?_, ?_⟩
      · funext c
        have := congrFun hsum (Fin.castSucc c)
        rw [augA_sum_coeff hle hlen, ha, one_mul, hcoeff0 c] at this
        exact (zmod2_add_eq_zero _ _).mp this
      · have := congrFun hsum (Fin.last W)
        rw [augA_sum_tgt hle hlen, ha, one_mul, htgt1] at this
        rw [zmod2_ne_iff]
        exact this
  · intro ⟨g, hco, htg⟩
    rw [mem_span_range_iff_exists_fun]
    refine ⟨Fin.snoc g 1, ?_⟩
    funext c
    induction c using Fin.lastCases with
    | last =>
        rw [augA_sum_tgt hle hlen]
        simp only [Fin.snoc_castSucc, Fin.snoc_last]
        rw [one_mul, htgt1]
        exact (zmod2_ne_iff _ _).mp htg
    | cast c0 =>
        rw [augA_sum_coeff hle hlen]
        simp only [Fin.snoc_castSucc, Fin.snoc_last]
        rw [one_mul, hcoeff0 c0]
        have := congrFun hco c0
        rw [this, zmod2_add_self]

theorem getD_set_ne {α : Type} (l : List α) (i j : Nat) (a d : α) (h : i ≠ j) :
    (l.set i a).getD j d = l.getD j d := by
  unfold List.getD
  rw [List.get?_set_ne _ _ h]

theorem getD_set_self {α : Type} (l : List α) (i : Nat) (a d : α) (h : i < l.length) :
    (l.set i a).getD i d = a := by
  unfold List.getD
  rw [List.get?_set_eq_of_lt a h]
  rfl

theorem listSwap_length {α : Type} (l : List α) (i j : Nat) (d : α) :
    (listSwap l i j d).length = l.length := by
  unfold listSwap
  simp

theorem listSwap_getD_of_ne {α : Type} (l : List α) (i j p : Nat) (d : α)
    (hpi : p ≠ i) (hpj : p ≠ j) :
    (listSwap l i j d).getD p d = l.getD p d := by
  unfold listSwap
  rw [getD_set_ne _ _ _ _ _ (fun h => hpj h.symm), getD_set_ne _ _ _ _ _ (fun h => hpi h.symm)]

theorem listSwap_getD_fst {α : Type} (l : List α) (i j : Nat) (d : α)
    (hi : i < l.length) (hj : j < l.length) :
    (listSwap l i j d).getD i d = l.getD j d := by
  unfold listSwap
  by_cases hij : i = j
  · rw [hij]
    rw [getD_set_self _ _ _ _ (by simpa using hj)]
  · rw [getD_set_ne _ _ _ _ _ (fun h => hij h.symm), getD_set_self _ _ _ _ hi]

theorem mismatch_not_match {W : Nat} {s : MatrixSolver} {row : Row} {t : Bool}
    (hpre : PrefixIndep W s) :
    SpanMismatch W s row t → ¬ SpanMatch W s row t := by
  rintro ⟨g, hco, htg⟩ ⟨g', hco', htg'⟩
  have hsum0 : (∑ i, (g i + g' i) • prefixFam W s i) = 0 := by
    simp only [add_smul, Finset.sum_add_distrib]
    rw [hco, hco', vec_add_self]
  have hgg : ∀ i, g i + g' i = 0 :=
    fun i => Fintype.linearIndependent_iff.mp hpre _ hsum0 i
  have hge : g = g' := funext fun i => (zmod2_add_eq_zero _ _).mp (hgg i)
  rw [hge, htg'] at htg
  exact htg rfl

/-- The three outcomes of `MatrixSolver::independent` on the pushed state, in
terms of the span conditions on the prefix. -/
theorem independent_result (W : Nat) (s : MatrixSolver) (row : Row) (t : Bool)
    (hpre : PrefixIndep W s) (hlen : s.targets.length = s.contents.length) :
    (SpanMismatch W s row t →
      MatrixSolver.independent W (pushed s row t) ((pushed s row t).contents.length - 1)
        = .error ())
    ∧ (SpanMatch W s row t →
      MatrixSolver.independent W (pushed s row t) ((pushed s row t).contents.length - 1)
        = .ok false)
    ∧ (¬ SpanMismatch W s row t → ¬ SpanMatch W s row t →
      MatrixSolver.independent W (pushed s row t) ((pushed s row t).contents.length - 1)
        = .ok true) := by
  have hone := elim_one_iff (s.independent_rows + 1) (W + 1)
    (augCopy W (pushed s row t) ((pushed s row t).contents.length - 1)) (by omega) (by omega)
  have hzero := elim_zero_iff (s.independent_rows + 1) (W + 1)
    (augCopy W (pushed s row t) ((pushed s row t).contents.length - 1)) (by omega)
  rw [Nat.add_sub_cancel] at hone hzero
  have he1 : (eVec (W + 1) ∈ sp (s.independent_rows + 1) (W + 1)
      (augCopy W (pushed s row t) ((pushed s row t).contents.length - 1)))
        ↔ SpanMismatch W s row t :=
    augA_evec_iff hpre hlen
  have hi1 : LinearIndependent (ZMod 2) (fam (s.independent_rows + 1) (W + 1)
      (augCopy W (pushed s row t) ((pushed s row t).contents.length - 1)))
        ↔ ¬ SpanMatch W s row t :=
    augA_indep_iff hpre hlen
  refine ⟨?_, ?_, ?_⟩
  · intro hmm
    have honev : one_vector (W + 1)
        ((elimLoop (s.independent_rows + 1) (W + 1)
          (augCopy W (pushed s row t) ((pushed s row t).contents.length - 1))).1
          s.independent_rows) = true :=
      hone.mpr ⟨he1.mpr hmm, hi1.mpr (mismatch_not_match hpre hmm)⟩
    unfold MatrixSolver.independent
    show (if one_vector (W + 1)
        ((elimLoop (s.independent_rows + 1) (W + 1)
          (augCopy W (pushed s row t) ((pushed s row t).contents.length - 1))).1
          s.independent_rows) = true then Except.error () else _) = _
    rw [honev]
    rfl
  · intro hma
    have honev : one_vector (W + 1)
        ((elimLoop (s.independent_rows + 1) (W + 1)
          (augCopy W (pushed s row t) ((pushed s row t).contents.length - 1))).1
          s.independent_rows) = false := by
      rcases hov : one_vector (W + 1)
          ((elimLoop (s.independent_rows + 1) (W + 1)
            (augCopy W (pushed s row t) ((pushed s row t).contents.length - 1))).1
            s.independent_rows) with _ | _
      · rfl
      · exact absurd hma (mismatch_not_match hpre (he1.mp (hone.mp hov).1))
    have hzerov : zero_vector (W + 1)
        ((elimLoop (s.independent_rows + 1) (W + 1)
          (augCopy W (pushed s row t) ((pushed s row t).contents.length - 1))).1
          s.independent_rows) = true :=
      hzero.mpr (fun hind => (hi1.mp hind) hma)
    unfold MatrixSolver.independent
    show (if one_vector (W + 1)
        ((elimLoop (s.independent_rows + 1) (W + 1)
          (augCopy W (pushed s row t) ((pushed s row t).contents.length - 1))).1
          s.independent_rows) = true then Except.error ()
      else Except.ok (!zero_vector (W + 1)
        ((elimLoop (s.independent_rows + 1) (W + 1)
          (augCopy W (pushed s row t) ((pushed s row t).contents.length - 1))).1
          s.independent_rows))) = _
    rw [honev, hzerov]
    rfl
  · intro hnm hnma
    have honev : one_vector (W + 1)
        ((elimLoop (s.independent_rows + 1) (W + 1)
          (augCopy W (pushed s row t) ((pushed s row t).contents.length - 1))).1
          s.independent_rows) = false := by
      rcases hov : one_vector (W + 1)
          ((elimLoop (s.independent_rows + 1) (W + 1)
            (augCopy W (pushed s row t) ((pushed s row t).contents.length - 1))).1
            s.independent_rows) with _ | _
      · rfl
      · exact absurd (he1.mp (hone.mp hov).1) hnm
    have hzerov : zero_vector (W + 1)
        ((elimLoop (s.independent_rows + 1) (W + 1)
          (augCopy W (pushed s row t) ((pushed s row t).contents.length - 1))).1
          s.independent_rows) = false := by
      rcases hzv : zero_vector (W + 1)
          ((elimLoop (s.independent_rows + 1) (W + 1)
            (augCopy W (pushed s row t) ((pushed s row t).contents.length - 1))).1
            s.independent_rows) with _ | _
      · rfl
      · exact absurd (hi1.mpr hnma) (hzero.mp hzv)
    unfold MatrixSolver.independent
    show (if one_vector (W + 1)
        ((elimLoop (s.independent_rows + 1) (W + 1)
          (augCopy W (pushed s row t) ((pushed s row t).contents.length - 1))).1
          s.independent_rows) = true then Except.error ()
      else Except.ok (!zero_vector (W + 1)
        ((elimLoop (s.independent_rows + 1) (W + 1)
          (augCopy W (pushed s row t) ((pushed s row t).contents.length - 1))).1
          s.independent_rows))) = _
    rw [honev, hzerov]
    rfl

theorem prefixIndep_le_width (W : Nat) (s : MatrixSolver) (h : PrefixIndep W s) :
    s.independent_rows ≤ W := by
  have := h.fintype_card_le_finrank
  simpa [Module.finrank_pi] using this

theorem addRow_mismatch_eq (W : Nat) (s : MatrixSolver) (row : Row) (t : Bool)
    (hpre : PrefixIndep W s) (hlen : s.targets.length = s.contents.length)
    (hmm : SpanMismatch W s row t) :
    s.addRow W row t = (pushed s row t, true) := by
  have hres := (independent_result W s row t hpre hlen).1 hmm
  unfold pushed at hres
  unfold MatrixSolver.addRow
  simp only []
  rw [hres]
  rfl

theorem addRow_match_eq (W : Nat) (s : MatrixSolver) (row : Row) (t : Bool)
    (hpre : PrefixIndep W s) (hlen : s.targets.length = s.contents.length)
    (hma : SpanMatch W s row t) :
    s.addRow W row t = (pushed s row t, false) := by
  have hres := (independent_result W s row t hpre hlen).2.1 hma
  unfold pushed at hres
  unfold MatrixSolver.addRow
  simp only []
  rw [hres]
  rfl

theorem addRow_accept_eq (W : Nat) (s : MatrixSolver) (row : Row) (t : Bool)
    (hpre : PrefixIndep W s) (hlen : s.targets.length = s.contents.length)
    (hnm : ¬ SpanMismatch W s row t) (hnma : ¬ SpanMatch W s row t) :
    s.addRow W row t
      = (⟨s.independent_rows + 1,
          listSwap (s.contents ++ [row]) s.independent_rows
            ((s.contents ++ [row]).length - 1) (fun _ => false),
          listSwap (s.targets ++ [t]) s.independent_rows
            ((s.targets ++ [t]).length - 1) false⟩, false) := by
  have hres := (independent_result W s row t hpre hlen).2.2 hnm hnma
  unfold pushed at hres
  unfold MatrixSolver.addRow listSwap
  simp only []
  rw [hres]

theorem addRow_accept_facts (W : Nat) (s : MatrixSolver) (row : Row) (t : Bool)
    (hpre : PrefixIndep W s) (hlen : s.targets.length = s.contents.length)
    (hnm : ¬ SpanMismatch W s row t) (hnma : ¬ SpanMatch W s row t) :
    (s.addRow W row t).2 = false
    ∧ (s.addRow W row t).1.independent_rows = s.independent_rows + 1
    ∧ (∀ i, i < s.independent_rows →
        getRow (s.addRow W row t).1.contents i = getRow s.contents i
        ∧ getTarget (s.addRow W row t).1.targets i = getTarget s.targets i)
    ∧ getRow (s.addRow W row t).1.contents s.independent_rows = row
    ∧ getTarget (s.addRow W row t).1.targets s.independent_rows = t
    ∧ (s.addRow W row t).1.contents.length = s.contents.length + 1
    ∧ (s.addRow W row t).1.targets.length = s.targets.length + 1 := by
  have hle := prefixIndep_le W s hpre
  rw [addRow_accept_eq W s row t hpre hlen hnm hnma]
  have hclen : (s.contents ++ [row]).length - 1 = s.contents.length := by simp
  have htlen : (s.targets ++ [t]).length - 1 = s.targets.length := by simp
  refine ⟨rfl, rfl, ?_, ?_, ?_, ?_, ?_⟩
  · intro i hi
    constructor
    · unfold getRow
      rw [hclen, listSwap_getD_of_ne _ _ _ _ _ (by omega) (by omega)]
      exact getD_append_left _ _ i _ (by omega)
    · unfold getTarget
      rw [htlen, listSwap_getD_of_ne _ _ _ _ _ (by omega) (by omega)]
      exact getD_append_left _ _ i _ (by omega)
  · unfold getRow
    rw [hclen, listSwap_getD_fst _ _ _ _ (by simp; omega) (by simp)]
    exact getD_concat_self _ _ _
  · unfold getTarget
    rw [htlen, listSwap_getD_fst _ _ _ _ (by simp; omega) (by simp)]
    exact getD_concat_self _ _ _
  · simp [listSwap_length]
  · simp [listSwap_length]

theorem prefixFam_pushed (W : Nat) (s : MatrixSolver) (row : Row) (t : Bool)
    (hle : s.independent_rows ≤ s.contents.length) :
    prefixFam W (pushed s row t) = prefixFam W s := by
  funext i
  unfold prefixFam pushed getRow
  show bvec W ((s.contents ++ [row]).getD i.val _) = _
  rw [getD_append_left _ _ i.val _ (by
    have h2 : (pushed s row t).independent_rows = s.independent_rows := rfl
    have := i.isLt
    omega)]

theorem notin_span_of_neither (W : Nat) (s : MatrixSolver) (row : Row) (t : Bool)
    (hnm : ¬ SpanMismatch W s row t) (hnma : ¬ SpanMatch W s row t) :
    bvec W row ∉ Submodule.span (ZMod 2) (Set.range (prefixFam W s)) := by
  intro hmem
  rw [mem_span_range_iff_exists_fun] at hmem
  obtain ⟨g, hg⟩ := hmem
  by_cases htau : (∑ i, g i * prefixTgt s i) = b2z t
  · exact hnma ⟨g, hg, htau⟩
  · exact hnm ⟨g, hg, htau⟩

theorem prefixFam_accept (W : Nat) (s : MatrixSolver) (row : Row) (t : Bool)
    (hpre : PrefixIndep W s) (hlen : s.targets.length = s.contents.length)
    (hnm : ¬ SpanMismatch W s row t) (hnma : ¬ SpanMatch W s row t) :
    ∀ i : Fin ((s.addRow W row t).1.independent_rows),
      prefixFam W (s.addRow W row t).1 i
        = (Fin.snoc (prefixFam W s) (bvec W row) :
            Fin (s.independent_rows + 1) → (Fin W → ZMod 2))
          (Fin.cast ((addRow_accept_facts W s row t hpre hlen hnm hnma).2.1) i) := by
  obtain ⟨_, hir, hpres, hcand, _, _, _⟩ := addRow_accept_facts W s row t hpre hlen hnm hnma
  intro i
  have hi : i.val < s.independent_rows + 1 := by
    have := i.isLt
    omega
  rcases Nat.lt_or_ge i.val s.independent_rows with hlt | hge
  · have : (Fin.cast ((addRow_accept_facts W s row t hpre hlen hnm hnma).2.1) i)
        = Fin.castSucc ⟨i.val, hlt⟩ := by
      apply Fin.ext
      simp
    rw [this, Fin.snoc_castSucc]
    unfold prefixFam
    rw [(hpres i.val hlt).1]
  · have hiv : i.val = s.independent_rows := by omega
    have : (Fin.cast ((addRow_accept_facts W s row t hpre hlen hnm hnma).2.1) i)
        = Fin.last s.independent_rows := by
      apply Fin.ext
      simp [hiv]
    rw [this, Fin.snoc_last]
    unfold prefixFam
    rw [show i.val = s.independent_rows from hiv, hcand]

/-- `addRow` preserves the solver's well-formedness invariant: the prefix
stays linearly independent, the row/target lists stay aligned, and the rank
either stays or grows by one. -/
theorem addRow_invariant (W : Nat) (s : MatrixSolver) (row : Row) (t : Bool)
    (hpre : PrefixIndep W s) (hlen : s.targets.length = s.contents.length) :
    PrefixIndep W (s.addRow W row t).1
    ∧ (s.addRow W row t).1.targets.length = (s.addRow W row t).1.contents.length
    ∧ s.independent_rows ≤ (s.addRow W row t).1.independent_rows
    ∧ (s.addRow W row t).1.independent_rows ≤ s.independent_rows + 1 := by
  have hle := prefixIndep_le W s hpre
  by_cases hmm : SpanMismatch W s row t
  · rw [addRow_mismatch_eq W s row t hpre hlen hmm]
    refine ⟨?_, by simp [pushed, hlen], by simp [pushed], by simp [pushed]⟩
    unfold PrefixIndep
    rw [prefixFam_pushed W s row t hle]
    exact hpre
  · by_cases hma : SpanMatch W s row t
    · rw [addRow_match_eq W s row t hpre hlen hma]
      refine ⟨?_, by simp [pushed, hlen], by simp [pushed], by simp [pushed]⟩
      unfold PrefixIndep
      rw [prefixFam_pushed W s row t hle]
      exact hpre
    · obtain ⟨hthrow, hir, hpres, hcand, hctar, hclen, htlen⟩ :=
        addRow_accept_facts W s row t hpre hlen hmm hma
      refine ⟨?_, by omega, by omega, by omega⟩
      unfold PrefixIndep
      have hsnoc : LinearIndependent (ZMod 2)
          (Fin.snoc (prefixFam W s) (bvec W row) :
            Fin (s.independent_rows + 1) → (Fin W → ZMod 2)) :=
        linearIndependent_fin_snoc.mpr ⟨hpre, notin_span_of_neither W s row t hmm hma⟩
      have heq : prefixFam W (s.addRow W row t).1
          = (Fin.snoc (prefixFam W s) (bvec W row) :
              Fin (s.independent_rows + 1) → (Fin W → ZMod 2))
            ∘ (Fin.cast ((addRow_accept_facts W s row t hpre hlen hmm hma).2.1)) := by
        funext i
        exact prefixFam_accept W s row t hpre hlen hmm hma i
      rw [heq]
      apply hsnoc.comp
      exact Fin.cast_injective _

/-- Running a sequence of `addRow` calls against a fresh solver,
discarding the thrown/accepted flags, as the controller does. -/
def applyOps (W : Nat) (ops : List (Row × Bool)) : MatrixSolver :=
  ops.foldl (fun s op => (s.addRow W op.1 op.2).1) MatrixSolver.empty

theorem foldAdd_inv (W : Nat) (ops : List (Row × Bool)) (s : MatrixSolver)
    (hpre : PrefixIndep W s) (hlen : s.targets.length = s.contents.length) :
    PrefixIndep W (ops.foldl (fun s op => (s.addRow W op.1 op.2).1) s)
    ∧ (ops.foldl (fun s op => (s.addRow W op.1 op.2).1) s).targets.length
        = (ops.foldl (fun s op => (s.addRow W op.1 op.2).1) s).contents.length
    ∧ s.independent_rows
        ≤ (ops.foldl (fun s op => (s.addRow W op.1 op.2).1) s).independent_rows := by
  induction ops generalizing s with
  | nil => exact ⟨hpre, hlen, le_refl _⟩
  | cons op rest ih =>
    obtain ⟨h1, h2, h3, _⟩ := addRow_invariant W s op.1 op.2 hpre hlen
    obtain ⟨g1, g2, g3⟩ := ih _ h1 h2
    exact ⟨g1, g2, le_trans h3 g3⟩

theorem empty_prefixIndep (W : Nat) : PrefixIndep W MatrixSolver.empty := by
  unfold PrefixIndep MatrixSolver.empty
  exact linearIndependent_empty_type

/-- C5: after any sequence of `addRow` operations (redundant and inconsistent
ones included), the first `getIndependent` stored rows are linearly
independent over GF(2), `getIndependent` does not decrease when a further
operation is applied, and `getIndependent` never exceeds the width. -/
theorem claim_C5 (W : Nat) (ops : List (Row × Bool)) :
    PrefixIndep W (applyOps W ops)
    ∧ (∀ op : Row × Bool,
        (applyOps W ops).getIndependent ≤ (applyOps W (ops ++ [op])).getIndependent)
    ∧ (applyOps W ops).getIndependent ≤ W := by
  obtain ⟨h1, h2, _⟩ := foldAdd_inv W ops MatrixSolver.empty (empty_prefixIndep W) rfl
  refine ⟨h1, ?_, prefixIndep_le_width W _ h1⟩
  intro op
  show (applyOps W ops).independent_rows ≤ (applyOps W (ops ++ [op])).independent_rows
  unfold applyOps
  rw [List.foldl_append]
  obtain ⟨_, _, h3, _⟩ := addRow_invariant W (applyOps W ops) op.1 op.2 h1 h2
  exact le_trans h3 (le_of_eq (by rfl))

/-- C4: under a linearly independent prefix, `addRow` throws the
inconsistent-equation error exactly when the candidate's coefficient row is
a GF(2) combination of the accepted independent rows whose implied target
contradicts the candidate's target bit; on a throw the rank is unchanged. -/
theorem claim_C4 (W : Nat) (s : MatrixSolver) (row : Row) (t : Bool)
    (hpre : PrefixIndep W s) (hlen : s.targets.length = s.contents.length) :
    ((s.addRow W row t).2 = true ↔ SpanMismatch W s row t)
    ∧ ((s.addRow W row t).2 = true →
        (s.addRow W row t).1.getIndependent = s.getIndependent) := by
  by_cases hmm : SpanMismatch W s row t
  · rw [addRow_mismatch_eq W s row t hpre hlen hmm]
    exact ⟨⟨fun _ => hmm, fun _ => rfl⟩, fun _ => rfl⟩
  · by_cases hma : SpanMatch W s row t
    · rw [addRow_match_eq W s row t hpre hlen hma]
      refine ⟨⟨fun h => absurd h (by simp), fun h => absurd h hmm⟩, ?_⟩
      intro h
      exact absurd h (by simp)
    · obtain ⟨hthrow, _, _, _, _, _, _⟩ := addRow_accept_facts W s row t hpre hlen hmm hma
      refine ⟨⟨fun h => ?_, fun h => absurd h hmm⟩, fun h => ?_⟩
      · rw [hthrow] at h
        exact absurd h (by simp)
      · rw [hthrow] at h
        exact absurd h (by simp)

theorem claim_C4_witness :
    (((MatrixSolver.empty.addRow 1 (fun _ => false) true).2 = true
        ↔ SpanMismatch 1 MatrixSolver.empty (fun _ => false) true)
      ∧ ((MatrixSolver.empty.addRow 1 (fun _ => false) true).2 = true →
          (MatrixSolver.empty.addRow 1 (fun _ => false) true).1.getIndependent
            = MatrixSolver.empty.getIndependent)) :=
  claim_C4 1 MatrixSolver.empty (fun _ => false) true (empty_prefixIndep 1) rfl

/-! ## Claims C3 and C6: correctness of `solve` on a full-rank system -/

theorem find_range'_eq (p : Nat → Bool) :
    ∀ (n s i : Nat), s ≤ i → i < s + n → p i = true → (∀ j, s ≤ j → j < i → p j = false) →
      (List.range' s n).find? p = some i := by
  intro n
  induction n with
  | zero => intro s i h1 h2; omega
  | succ n ih =>
    intro s i h1 h2 hpi hlt
    rw [List.range'_succ s n 1]
    rcases Nat.eq_or_lt_of_le h1 with heq | hgt
    · subst heq
      simp [List.find?_cons, hpi]
    · have hps : p s = false := hlt s (le_refl s) hgt
      rw [List.find?_cons, hps]
      exact ih (s + 1) i hgt (by omega) hpi (fun j hj1 hj2 => hlt j (by omega) hj2)

theorem find_range_eq (p : Nat → Bool) (n i : Nat) (hi : i < n) (hpi : p i = true)
    (hlt : ∀ j, j < i → p j = false) :
    (List.range n).find? p = some i := by
  rw [List.range_eq_range' n]
  exact find_range'_eq p n 0 i (Nat.zero_le i) (by omega) hpi (fun j _ hj => hlt j hj)

theorem find_range_some {p : Nat → Bool} {n j : Nat}
    (h : (List.range n).find? p = some j) : j < n ∧ p j = true :=
  ⟨List.mem_range.mp (List.mem_of_find?_eq_some h), List.find?_some h⟩

theorem gElimStep_eq_none {ir i : Nat} {C : Nat → Row} {T : Nat → Bool}
    (h : (List.range ir).find? (fun j => decide (i ≤ j) && C j i) = none) :
    gElimStep ir i (C, T) = (C, T) := by
  unfold gElimStep
  simp only [h]

theorem gElimStep_eq_some {ir i : Nat} {C : Nat → Row} {T : Nat → Bool} {j : Nat}
    (h : (List.range ir).find? (fun j => decide (i ≤ j) && C j i) = some j) :
    gElimStep ir i (C, T) =
      (fun t => if decide (i + 1 ≤ t) && decide (t < ir) && swapRows C j i t i then
          xor_vectors (swapRows C j i t) (swapRows C j i i) else swapRows C j i t,
       fun t => if decide (i + 1 ≤ t) && decide (t < ir) && swapRows C j i t i then
          xor ((fun t => if t = j then T i else if t = i then T j else T t) i)
              ((fun t => if t = j then T i else if t = i then T j else T t) t)
          else (fun t => if t = j then T i else if t = i then T j else T t) t) := by
  unfold gElimStep
  simp only [h]

theorem foldl_xor_false (f : Nat → Bool) :
    ∀ (l : List Nat) (a : Bool), (∀ i ∈ l, f i = false) →
      l.foldl (fun acc i => xor acc (f i)) a = a := by
  intro l
  induction l with
  | nil => intro a _; rfl
  | cons x xs ih =>
    intro a h
    show xs.foldl _ (xor a (f x)) = a
    rw [h x (List.mem_cons_self x xs), Bool.xor_false]
    exact ih a (fun i hi => h i (List.mem_cons_of_mem x hi))

theorem foldl_xor_congr (f g : Nat → Bool) :
    ∀ (l : List Nat) (a : Bool), (∀ i ∈ l, f i = g i) →
      l.foldl (fun acc i => xor acc (f i)) a = l.foldl (fun acc i => xor acc (g i)) a := by
  intro l
  induction l with
  | nil => intro a _; rfl
  | cons x xs ih =>
    intro a h
    show xs.foldl _ (xor a (f x)) = xs.foldl _ (xor a (g x))
    rw [h x (List.mem_cons_self x xs)]
    exact ih _ (fun i hi => h i (List.mem_cons_of_mem x hi))

theorem foldl_xor_acc (f : Nat → Bool) :
    ∀ (l : List Nat) (a : Bool),
      l.foldl (fun acc i => xor acc (f i)) a
        = xor a (l.foldl (fun acc i => xor acc (f i)) false) := by
  intro l
  induction l with
  | nil => intro a; simp
  | cons x xs ih =>
    intro a
    show xs.foldl _ (xor a (f x)) = xor a (xs.foldl _ (xor false (f x)))
    rw [ih (xor a (f x)), ih (xor false (f x)), Bool.false_xor, Bool.xor_assoc]

theorem foldl_xor_add (f g : Nat → Bool) :
    ∀ (l : List Nat) (a : Bool),
      l.foldl (fun acc i => xor acc (xor (f i) (g i))) a
        = xor (l.foldl (fun acc i => xor acc (f i)) a)
              (l.foldl (fun acc i => xor acc (g i)) false) := by
  intro l
  induction l with
  | nil => intro a; simp
  | cons x xs ih =>
    intro a
    show xs.foldl _ (xor a (xor (f x) (g x)))
      = xor (xs.foldl _ (xor a (f x))) (xs.foldl _ (xor false (g x)))
    rw [ih, foldl_xor_acc f xs (xor a (xor (f x) (g x))), foldl_xor_acc f xs (xor a (f x)),
      foldl_xor_acc g xs (xor false (g x))]
    cases a <;> cases f x <;> cases g x <;>
      cases xs.foldl (fun acc i => xor acc (f i)) false <;>
      cases xs.foldl (fun acc i => xor acc (g i)) false <;> rfl

theorem dotRow_xor (W : Nat) (r1 r2 : Row) (x : Nat → Bool) :
    dotRow W (xor_vectors r1 r2) x = xor (dotRow W r1 x) (dotRow W r2 x) := by
  unfold dotRow
  have h1 : ∀ i ∈ List.range W,
      (xor_vectors r1 r2 i && x i) = xor (r1 i && x i) (r2 i && x i) := by
    intro i _
    unfold xor_vectors
    cases r1 i <;> cases r2 i <;> cases x i <;> rfl
  rw [foldl_xor_congr _ _ _ _ h1, foldl_xor_add]

/-- The register `x` solves the first `ir` stored equations. -/
def Satisfies (W ir : Nat) (C : Nat → Row) (T : Nat → Bool) (x : Nat → Bool) : Prop :=
  ∀ i, i < ir → dotRow W (C i) x = T i

/-- The index transposition performed by `std::swap` on rows `a` and `b`. -/
def swapIdx (a b t : Nat) : Nat := if t = a then b else if t = b then a else t

theorem swapIdx_invol (a b t : Nat) : swapIdx a b (swapIdx a b t) = t := by
  unfold swapIdx
  split_ifs <;> omega

theorem swapIdx_lt {a b t ir : Nat} (ha : a < ir) (hb : b < ir) (ht : t < ir) :
    swapIdx a b t < ir := by
  unfold swapIdx
  split_ifs <;> omega


theorem sat_perm (W ir : Nat) (C : Nat → Row) (T : Nat → Bool) (x : Nat → Bool)
    (σ : Nat → Nat) (hlt : ∀ t, t < ir → σ t < ir) (hinv : ∀ t, σ (σ t) = t) :
    Satisfies W ir (fun t => C (σ t)) (fun t => T (σ t)) x ↔ Satisfies W ir C T x := by
  constructor
  · intro h t ht
    have h2 : dotRow W (C (σ (σ t))) x = T (σ (σ t)) := h (σ t) (hlt t ht)
    rwa [hinv t] at h2
  · intro h t ht
    exact h (σ t) (hlt t ht)

theorem sat_xor_pass (W ir : Nat) (C : Nat → Row) (T : Nat → Bool) (x : Nat → Bool)
    (o : Nat) (cond : Nat → Bool) (ho : o < ir) (hco : cond o = false) :
    Satisfies W ir (fun t => if cond t then xor_vectors (C t) (C o) else C t)
        (fun t => if cond t then xor (T o) (T t) else T t) x
      ↔ Satisfies W ir C T x := by
  constructor
  · intro h
    have h0 : dotRow W (if cond o = true then xor_vectors (C o) (C o) else C o) x
        = (if cond o = true then xor (T o) (T o) else T o) := h o ho
    rw [if_neg (by rw [hco]; exact Bool.false_ne_true),
      if_neg (by rw [hco]; exact Bool.false_ne_true)] at h0
    intro t ht
    have h1 : dotRow W (if cond t = true then xor_vectors (C t) (C o) else C t) x
        = (if cond t = true then xor (T o) (T t) else T t) := h t ht
    by_cases hc : cond t = true
    · rw [if_pos hc, if_pos hc, dotRow_xor, h0] at h1
      cases hdt : dotRow W (C t) x <;> rw [hdt] at h1 <;>
        cases hto : T o <;> rw [hto] at h1 <;> simp at h1 <;> simp [h1]
    · rwa [if_neg hc, if_neg hc] at h1
  · intro h t ht
    show dotRow W (if cond t = true then xor_vectors (C t) (C o) else C t) x
        = (if cond t = true then xor (T o) (T t) else T t)
    by_cases hc : cond t = true
    · rw [if_pos hc, if_pos hc, dotRow_xor, h o ho, h t ht, Bool.xor_comm]
    · rw [if_neg hc, if_neg hc]
      exact h t ht

theorem swapRows_eq_comp (C : Nat → Row) (a b : Nat) :
    swapRows C a b = fun t => C (swapIdx a b t) := by
  funext t
  unfold swapRows swapIdx
  split_ifs <;> rfl

theorem sat_swap (W ir : Nat) (C : Nat → Row) (T : Nat → Bool) (x : Nat → Bool)
    (j i : Nat) (hj : j < ir) (hi : i < ir) :
    Satisfies W ir (swapRows C j i)
        (fun t => if t = j then T i else if t = i then T j else T t) x
      ↔ Satisfies W ir C T x := by
  have hC1 : swapRows C j i = fun t => C (swapIdx j i t) := swapRows_eq_comp C j i
  have hT1 : (fun t => if t = j then T i else if t = i then T j else T t)
      = fun t => T (swapIdx j i t) := by
    funext t
    unfold swapIdx
    split_ifs <;> rfl
  rw [hC1, hT1]
  exact sat_perm W ir C T x (swapIdx j i) (fun t ht => swapIdx_lt hj hi ht) (swapIdx_invol j i)

theorem gElimStep_sat (W ir i : Nat) (st : (Nat → Row) × (Nat → Bool)) (x : Nat → Bool) :
    Satisfies W ir (gElimStep ir i st).1 (gElimStep ir i st).2 x
      ↔ Satisfies W ir st.1 st.2 x := by
  obtain ⟨C, T⟩ := st
  cases hfind : (List.range ir).find? (fun j => decide (i ≤ j) && C j i) with
  | none => rw [gElimStep_eq_none hfind]
  | some j =>
    rw [gElimStep_eq_some hfind]
    obtain ⟨hjlt, hpj⟩ := find_range_some hfind
    rw [Bool.and_eq_true] at hpj
    have hij : i ≤ j := by
      have := hpj.1
      simpa using this
    have hiir : i < ir := by omega
    have h1 := sat_xor_pass W ir (swapRows C j i)
      (fun t => if t = j then T i else if t = i then T j else T t) x i
      (fun u => decide (i + 1 ≤ u) && decide (u < ir) && swapRows C j i u i)
      hiir (by simp)
    have h2 := sat_swap W ir C T x j i hjlt hiir
    exact Iff.trans h1 h2

theorem gaussianEliminate_sat (W ir : Nat) (C : Nat → Row) (T : Nat → Bool) (x : Nat → Bool) :
    Satisfies W ir (gaussianEliminate W ir C T).1 (gaussianEliminate W ir C T).2 x
      ↔ Satisfies W ir C T x := by
  unfold gaussianEliminate
  generalize List.range W = l
  induction l generalizing C T with
  | nil => exact Iff.rfl
  | cons a as ih =>
    show Satisfies W ir (as.foldl (fun s i => gElimStep ir i s) (gElimStep ir a (C, T))).1
        (as.foldl (fun s i => gElimStep ir i s) (gElimStep ir a (C, T))).2 x ↔ _
    have hmid := ih (gElimStep ir a (C, T)).1 (gElimStep ir a (C, T)).2
    exact Iff.trans hmid (gElimStep_sat W ir a (C, T) x)

theorem indep_card_le_support (m W : Nat) (S : Finset (Fin W))
    (f : Fin m → Fin W → ZMod 2) (hind : LinearIndependent (ZMod 2) f)
    (hsupp : ∀ i c, c ∉ S → f i c = 0) : m ≤ S.card := by
  set π : (Fin W → ZMod 2) →ₗ[ZMod 2] ({x // x ∈ S} → ZMod 2) :=
    LinearMap.funLeft (ZMod 2) (ZMod 2) (Subtype.val : {x // x ∈ S} → Fin W) with hπ
  have hdisj : Disjoint (Submodule.span (ZMod 2) (Set.range f)) (LinearMap.ker π) := by
    rw [Submodule.disjoint_def]
    intro v hv hker
    have hout : ∀ c, c ∉ S → v c = 0 := by
      let Z : Submodule (ZMod 2) (Fin W → ZMod 2) :=
        { carrier := {u | ∀ c, c ∉ S → u c = 0}
          add_mem' := by
            intro a b ha hb c hc
            show a c + b c = 0
            rw [ha c hc, hb c hc, add_zero]
          zero_mem' := by intro c hc; rfl
          smul_mem' := by
            intro r a ha c hc
            show r * a c = 0
            rw [ha c hc, mul_zero] }
      have hle : Submodule.span (ZMod 2) (Set.range f) ≤ Z := by
        rw [Submodule.span_le]
        rintro u ⟨i, rfl⟩
        intro c hc
        exact hsupp i c hc
      exact hle hv
    have hin : ∀ c, c ∈ S → v c = 0 := by
      intro c hc
      have h0 : π v = 0 := LinearMap.mem_ker.mp hker
      rw [hπ] at h0
      have := congrFun h0 ⟨c, hc⟩
      simpa [LinearMap.funLeft_apply] using this
    funext c
    by_cases hc : c ∈ S
    · exact hin c hc
    · exact hout c hc
  have hcomp : LinearIndependent (ZMod 2) (π ∘ f) := hind.map hdisj
  have := hcomp.fintype_card_le_finrank
  rwa [Fintype.card_fin, Module.finrank_pi, Fintype.card_coe] at this

/-- Loop invariant of `MatrixSolver::gaussianEliminate` after processing
columns `0..k-1` on a full-rank `W`-row system: the row space is unchanged,
each processed column holds a 1 on the diagonal, and is zero in every row
below its diagonal. -/
structure GElimInv (W k : Nat) (C0 : Nat → Row) (st : (Nat → Row) × (Nat → Bool)) : Prop where
  span_eq : sp W W st.1 = sp W W C0
  diag : ∀ j, j < k → st.1 j j = true
  below : ∀ j t, j < k → j < t → t < W → st.1 t j = false

theorem gElim_pivot (W k : Nat) (C0 : Nat → Row) (st : (Nat → Row) × (Nat → Bool))
    (hind : LinearIndependent (ZMod 2) (fam W W C0))
    (inv : GElimInv W k C0 st) (hk : k < W) :
    ∃ j, k ≤ j ∧ j < W ∧ st.1 j k = true := by
  by_contra hcon
  push_neg at hcon
  have hcur : LinearIndependent (ZMod 2) (fam W W st.1) :=
    (indep_iff_of_span_eq (fam W W st.1) (fam W W C0) inv.span_eq).mpr hind
  set g : Fin (W - k) → Fin W → ZMod 2 :=
    fun i => fam W W st.1 ⟨k + i.val, by omega⟩ with hg
  have hginj : Function.Injective
      (fun i : Fin (W - k) => (⟨k + i.val, by omega⟩ : Fin W)) := by
    intro a b hab
    have : k + a.val = k + b.val := congrArg Fin.val hab
    exact Fin.ext (by omega)
  have hgind : LinearIndependent (ZMod 2) g := hcur.comp _ hginj
  have hsupp : ∀ i (c : Fin W), c ∉ Finset.Ioi (⟨k, hk⟩ : Fin W) → g i c = 0 := by
    intro i c hc
    rw [Finset.mem_Ioi] at hc
    have hck : c.val ≤ k := by
      by_contra hcg
      exact hc (by rw [Fin.lt_def]; simp only [Fin.val_mk]; omega)
    show bvec W (st.1 (k + i.val)) c = 0
    unfold bvec
    rcases Nat.lt_or_ge c.val k with hlt | hge
    · rw [inv.below c.val (k + i.val) hlt (by omega) (by omega)]
      rfl
    · have hck2 : c.val = k := by omega
      have hne := hcon (k + i.val) (by omega) (by omega)
      rw [hck2]
      cases hv : st.1 (k + i.val) k
      · rfl
      · exact absurd hv hne
  have hcard := indep_card_le_support (W - k) W _ g hgind hsupp
  rw [Fin.card_Ioi] at hcard
  simp only [Fin.val_mk] at hcard
  omega

theorem gElimStep_inv (W k : Nat) (C0 : Nat → Row) (C : Nat → Row) (T : Nat → Bool)
    (hind : LinearIndependent (ZMod 2) (fam W W C0))
    (inv : GElimInv W k C0 (C, T)) (hk : k < W) :
    GElimInv W (k + 1) C0 (gElimStep W k (C, T)) := by
  obtain ⟨j0, hj0k, hj0W, hj0v⟩ := gElim_pivot W k C0 (C, T) hind inv hk
  cases hfind : (List.range W).find? (fun j => decide (k ≤ j) && C j k) with
  | none =>
    exfalso
    have hnone := List.find?_eq_none.mp hfind j0 (List.mem_range.mpr hj0W)
    apply hnone
    rw [Bool.and_eq_true]
    exact ⟨by simpa using hj0k, hj0v⟩
  | some jp =>
    obtain ⟨hjW, hpredj⟩ := find_range_some hfind
    rw [Bool.and_eq_true] at hpredj
    have hkj : k ≤ jp := by simpa using hpredj.1
    have hCjk : C jp k = true := hpredj.2
    rw [gElimStep_eq_some hfind]
    set C1 : Nat → Row := swapRows C jp k with hC1
    have hC1kk : C1 k k = true := by
      rw [hC1]
      unfold swapRows
      by_cases h : k = jp
      · rw [if_pos h, h]
        rw [h] at hCjk
        exact hCjk
      · rw [if_neg h, if_pos rfl]
        exact hCjk
    have hC1small : ∀ r, r < k → C1 r = C r := by
      intro r hr
      rw [hC1]
      unfold swapRows
      rw [if_neg (by omega), if_neg (by omega)]
    have hC1zero : ∀ c, c < k → ∀ r, c < r → r < W → C1 r c = false := by
      intro c hc r hcr hrW
      rw [hC1]
      unfold swapRows
      by_cases h1 : r = jp
      · rw [if_pos h1]
        exact inv.below c k hc hc hk
      · rw [if_neg h1]
        by_cases h2 : r = k
        · rw [if_pos h2]
          exact inv.below c jp hc (by omega) hjW
        · rw [if_neg h2]
          exact inv.below c r hc hcr hrW
    refine ⟨?_, ?_, ?_⟩
    · have e1 : sp W W (fun t => if decide (k + 1 ≤ t) && decide (t < W) && C1 t k then
            xor_vectors (C1 t) (C1 k) else C1 t) = sp W W C1 :=
        sp_xor_pass W W C1 hk
          (fun t => decide (k + 1 ≤ t) && decide (t < W) && C1 t k) (by simp)
      have e2 : sp W W C1 = sp W W C := by
        rw [hC1]
        exact sp_swap W W C hjW hk
      show sp W W (fun t => if decide (k + 1 ≤ t) && decide (t < W) && C1 t k then
          xor_vectors (C1 t) (C1 k) else C1 t) = sp W W C0
      rw [e1, e2]
      exact inv.span_eq
    · intro j2 hj2
      show (if decide (k + 1 ≤ j2) && decide (j2 < W) && C1 j2 k then
          xor_vectors (C1 j2) (C1 k) else C1 j2) j2 = true
      rcases Nat.lt_or_ge j2 k with h | h
      · have hcond : decide (k + 1 ≤ j2) = false := by
          simp only [decide_eq_false_iff_not]
          omega
        rw [hcond, Bool.false_and, Bool.false_and, if_neg Bool.false_ne_true]
        rw [hC1small j2 h]
        exact inv.diag j2 h
      · have hj2k : k = j2 := by omega
        subst hj2k
        rw [show decide (k + 1 ≤ k) = false from by
            simp only [decide_eq_false_iff_not]; omega,
          Bool.false_and, Bool.false_and, if_neg Bool.false_ne_true]
        exact hC1kk
    · intro c t2 hc hct ht2
      show (if decide (k + 1 ≤ t2) && decide (t2 < W) && C1 t2 k then
          xor_vectors (C1 t2) (C1 k) else C1 t2) c = false
      rcases Nat.lt_or_ge c k with h | h
      · by_cases hcond : (decide (k + 1 ≤ t2) && decide (t2 < W) && C1 t2 k) = true
        · rw [if_pos hcond]
          show xor (C1 t2 c) (C1 k c) = false
          rw [hC1zero c h t2 hct ht2, hC1zero c h k h hk]
          rfl
        · rw [if_neg hcond]
          exact hC1zero c h t2 hct ht2
      · have hck : c = k := by omega
        subst hck
        have h1 : decide (c + 1 ≤ t2) = true := by
          simp only [decide_eq_true_eq]
          omega
        have h2 : decide (t2 < W) = true := by
          simp only [decide_eq_true_eq]
          exact ht2
        by_cases hv : C1 t2 c = true
        · rw [if_pos (by rw [h1, h2, hv]; rfl)]
          show xor (C1 t2 c) (C1 c c) = false
          rw [hv, hC1kk]
          rfl
        · have hv2 : C1 t2 c = false := by
            cases hb : C1 t2 c
            · rfl
            · exact absurd hb hv
          rw [if_neg (by rw [hv2]; simp)]
          exact hv2

theorem gElimPart_inv (W : Nat) (C0 : Nat → Row) (T0 : Nat → Bool)
    (hind : LinearIndependent (ZMod 2) (fam W W C0)) :
    ∀ k, k ≤ W →
      GElimInv W k C0 ((List.range k).foldl (fun s i => gElimStep W i s) (C0, T0)) := by
  intro k
  induction k with
  | zero =>
    intro _
    exact ⟨rfl, fun j hj => absurd hj (Nat.not_lt_zero j),
      fun j t hj _ _ => absurd hj (Nat.not_lt_zero j)⟩
  | succ n ih =>
    intro hle
    rw [List.range_succ, List.foldl_append]
    have hprev := ih (by omega)
    rcases hst : (List.range n).foldl (fun s i => gElimStep W i s) (C0, T0) with ⟨C, T⟩
    rw [hst] at hprev
    show GElimInv W (n + 1) C0 (gElimStep W n (C, T))
    exact gElimStep_inv W n C0 C T hind hprev (by omega)

theorem gaussianEliminate_inv (W : Nat) (C0 : Nat → Row) (T0 : Nat → Bool)
    (hind : LinearIndependent (ZMod 2) (fam W W C0)) :
    GElimInv W W C0 (gaussianEliminate W W C0 T0) :=
  gElimPart_inv W C0 T0 hind W (le_refl W)

theorem backSubGo_ge (ir : Nat) (C : Nat → Row) (T : Nat → Bool) :
    ∀ (j : Nat) (res : Nat → Bool) (t : Nat), j ≤ t → backSubGo ir C T j res t = res t := by
  intro j
  induction j with
  | zero => intro res t _; rfl
  | succ n ih =>
    intro res t ht
    show backSubGo ir C T n (setIdx res n (xor (backSubAcc ir n C res) (T n))) t = res t
    rw [ih _ t (by omega)]
    unfold setIdx
    rw [if_neg (by omega)]

theorem backSubAcc_congr (ir index : Nat) (C : Nat → Row) (res1 res2 : Nat → Bool)
    (h : ∀ i, index + 1 ≤ i → i < ir → res1 i = res2 i) :
    backSubAcc ir index C res1 = backSubAcc ir index C res2 := by
  unfold backSubAcc
  apply foldl_xor_congr
  intro i hi
  rw [List.mem_range'_1] at hi
  rw [h i hi.1 (by omega)]

theorem backSubGo_spec (ir : Nat) (C : Nat → Row) (T : Nat → Bool) :
    ∀ (j : Nat) (res : Nat → Bool) (k : Nat), k < j →
      backSubGo ir C T j res k
        = xor (backSubAcc ir k C (backSubGo ir C T j res)) (T k) := by
  intro j
  induction j with
  | zero => intro res k hk; omega
  | succ n ih =>
    intro res k hk
    rcases Nat.lt_or_ge k n with h | h
    · exact ih _ k h
    · have hkn : k = n := by omega
      subst hkn
      show backSubGo ir C T k (setIdx res k (xor (backSubAcc ir k C res) (T k))) k = _
      rw [backSubGo_ge ir C T k _ k (le_refl k)]
      unfold setIdx
      rw [if_pos rfl]
      congr 1
      apply backSubAcc_congr
      intro i hi1 hi2
      show res i = backSubGo ir C T (k + 1) res i
      rw [show backSubGo ir C T (k + 1) res
          = backSubGo ir C T k (setIdx res k (xor (backSubAcc ir k C res) (T k))) from rfl]
      rw [backSubGo_ge ir C T k _ i (by omega)]
      unfold setIdx
      rw [if_neg (by omega)]

theorem backwardSubstitute_sat (W : Nat) (C : Nat → Row) (T : Nat → Bool)
    (hdiag : ∀ j, j < W → C j j = true)
    (hbelow : ∀ j t, j < W → j < t → t < W → C t j = false) :
    Satisfies W W C T (backwardSubstitute W C T) := by
  intro k hk
  have hxk : backwardSubstitute W C T k
      = xor (backSubAcc W k C (backwardSubstitute W C T)) (T k) :=
    backSubGo_spec W C T W (fun _ => false) k hk
  show dotRow W (C k) (backwardSubstitute W C T) = T k
  set x := backwardSubstitute W C T with hxdef
  unfold dotRow
  have hsplit : List.range W = List.range' 0 k ++ (k :: List.range' (k + 1) (W - (k + 1))) := by
    rw [List.range_eq_range' W]
    have h2 : List.range' k (W - k) = k :: List.range' (k + 1) (W - (k + 1)) := by
      have h3 : W - k = (W - (k + 1)) + 1 := by omega
      rw [h3, List.range'_succ k (W - (k + 1)) 1]
    have h4 : (W - k) + k = W := by omega
    have h5 := List.range'_append_1 0 k (W - k)
    rw [Nat.zero_add] at h5
    rw [h4] at h5
    rw [← h5, h2]
  rw [hsplit, List.foldl_append]
  rw [foldl_xor_false (fun i => C k i && x i) (List.range' 0 k) false (by
    intro i hi
    rw [List.mem_range'_1] at hi
    show (C k i && x i) = false
    rw [hbelow i k (by omega) (by omega) hk, Bool.false_and])]
  show List.foldl (fun acc i => xor acc (C k i && x i)) (xor false (C k k && x k))
      (List.range' (k + 1) (W - (k + 1))) = T k
  rw [hdiag k hk, Bool.true_and, Bool.false_xor]
  rw [foldl_xor_acc (fun i => C k i && x i) (List.range' (k + 1) (W - (k + 1))) (x k)]
  rw [foldl_xor_congr (fun i => C k i && x i) (fun i => x i && C k i)
    (List.range' (k + 1) (W - (k + 1))) false (by
      intro i _
      exact Bool.and_comm (C k i) (x i))]
  have hacc : List.foldl (fun acc i => xor acc (x i && C k i)) false
      (List.range' (k + 1) (W - (k + 1))) = backSubAcc W k C x := rfl
  rw [hacc, hxk]
  cases backSubAcc W k C x <;> cases T k <;> rfl

theorem set_getD_self {α : Type} (l : List α) (i : Nat) (d : α) (h : i < l.length) :
    l.set i (l.getD i d) = l := by
  apply List.ext_get?
  intro n
  by_cases hn : n = i
  · subst hn
    rw [List.get?_set_eq_of_lt _ h, List.getD_eq_getElem l d h, List.get?_eq_get h]
    simp
  · rw [List.get?_set_ne _ _ (fun hc => hn hc.symm)]

theorem listSwap_self {α : Type} (l : List α) (i : Nat) (d : α) (h : i < l.length) :
    listSwap l i i d = l := by
  unfold listSwap
  rw [set_getD_self l i d h, set_getD_self l i d h]

/-- When every stored row is independent (`independent_rows` equals the row
count), an accepted `addRow` swaps the new row with itself: the row and target
are simply appended and the rank grows by one. -/
theorem addRow_inorder (W : Nat) (s : MatrixSolver) (row : Row) (t : Bool)
    (hfull : s.independent_rows = s.contents.length)
    (hlen : s.targets.length = s.contents.length)
    (hpre : PrefixIndep W s)
    (hnm : ¬ SpanMismatch W s row t) (hnma : ¬ SpanMatch W s row t) :
    (s.addRow W row t).1
      = ⟨s.independent_rows + 1, s.contents ++ [row], s.targets ++ [t]⟩ := by
  rw [addRow_accept_eq W s row t hpre hlen hnm hnma]
  show (⟨s.independent_rows + 1,
      listSwap (s.contents ++ [row]) s.independent_rows
        ((s.contents ++ [row]).length - 1) (fun _ => false),
      listSwap (s.targets ++ [t]) s.independent_rows
        ((s.targets ++ [t]).length - 1) false⟩ : MatrixSolver) = _
  rw [show (s.contents ++ [row]).length - 1 = s.independent_rows from by simp; omega,
    show (s.targets ++ [t]).length - 1 = s.independent_rows from by simp; omega,
    listSwap_self _ _ _ (by simp; omega), listSwap_self _ _ _ (by simp; omega)]

theorem addAll_state (W : Nat) (L : List (Row × Bool))
    (hind : LinearIndependent (ZMod 2) (fun i : Fin L.length => bvec W (L.get i).1)) :
    ∀ (todo done : List (Row × Bool)) (s : MatrixSolver), L = done ++ todo →
      s.contents = done.map Prod.fst → s.targets = done.map Prod.snd →
      s.independent_rows = done.length →
      (todo.foldl (fun s op => (s.addRow W op.1 op.2).1) s).contents = L.map Prod.fst
      ∧ (todo.foldl (fun s op => (s.addRow W op.1 op.2).1) s).targets = L.map Prod.snd
      ∧ (todo.foldl (fun s op => (s.addRow W op.1 op.2).1) s).independent_rows
          = L.length := by
  intro todo
  induction todo with
  | nil =>
    intro done s hL hc ht hir
    rw [List.append_nil] at hL
    subst hL
    exact ⟨hc, ht, hir⟩
  | cons op rest ih =>
    intro done s hL hc ht hir
    subst hL
    have hdl : done.length < (done ++ op :: rest).length := by simp
    have hlen2 : s.targets.length = s.contents.length := by rw [hc, ht]; simp
    have hfull : s.independent_rows = s.contents.length := by rw [hc, hir]; simp
    have hfamval : ∀ i : Fin s.independent_rows,
        prefixFam W s i
          = bvec W ((done ++ op :: rest).get
              ⟨i.val, by have := i.isLt; omega⟩).1 := by
      intro i
      have hi : i.val < done.length := by have := i.isLt; omega
      have h1 : getRow s.contents i.val = (done.get ⟨i.val, hi⟩).1 := by
        unfold getRow
        rw [hc]
        rw [List.getD_eq_getElem _ _ (by simpa using hi)]
        simp
      show bvec W (getRow s.contents i.val) = _
      rw [h1]
      congr 1
      rw [List.get_eq_getElem, List.get_eq_getElem,
        List.getElem_append_left (by simpa using hi)]
    have hpre : PrefixIndep W s := by
      unfold PrefixIndep
      have heq : prefixFam W s
          = (fun i : Fin (done ++ op :: rest).length => bvec W ((done ++ op :: rest).get i).1)
            ∘ (fun i : Fin s.independent_rows =>
                (⟨i.val, by have := i.isLt; omega⟩ : Fin (done ++ op :: rest).length)) := by
        funext i
        exact hfamval i
      rw [heq]
      apply hind.comp
      intro a b hab
      have h2 := congrArg Fin.val hab
      exact Fin.ext h2
    have hgetop : (done ++ op :: rest).get ⟨done.length, hdl⟩ = op := by
      rw [List.get_eq_getElem, List.getElem_append_right (le_refl done.length)]
      simp
    have hnotmem : bvec W op.1
        ∉ Submodule.span (ZMod 2) (Set.range (prefixFam W s)) := by
      intro hmem
      have heq : prefixFam W s
          = (fun i : Fin (done ++ op :: rest).length => bvec W ((done ++ op :: rest).get i).1)
            ∘ (fun i : Fin s.independent_rows =>
                (⟨i.val, by have := i.isLt; omega⟩ : Fin (done ++ op :: rest).length)) := by
        funext i
        exact hfamval i
      have hrange : Set.range (fun i : Fin s.independent_rows =>
            (⟨i.val, by have := i.isLt; omega⟩ : Fin (done ++ op :: rest).length))
          = {j : Fin (done ++ op :: rest).length | j.val < done.length} := by
        ext j
        constructor
        · rintro ⟨i, rfl⟩
          show i.val < done.length
          have := i.isLt
          omega
        · intro hj
          exact ⟨⟨j.val, by rw [hir]; exact hj⟩, Fin.ext rfl⟩
      rw [heq, Set.range_comp, hrange] at hmem
      have hnotin : (⟨done.length, hdl⟩ : Fin (done ++ op :: rest).length)
          ∉ {j : Fin (done ++ op :: rest).length | j.val < done.length} := by
        show ¬ (done.length < done.length)
        omega
      have hF := hind.not_mem_span_image hnotin
      rw [hgetop] at hF
      exact hF hmem
    have hnm : ¬ SpanMismatch W s op.1 op.2 := by
      rintro ⟨g, hg, _⟩
      exact hnotmem ((mem_span_range_iff_exists_fun _).mpr ⟨g, hg⟩)
    have hnma : ¬ SpanMatch W s op.1 op.2 := by
      rintro ⟨g, hg, _⟩
      exact hnotmem ((mem_span_range_iff_exists_fun _).mpr ⟨g, hg⟩)
    have hnew := addRow_inorder W s op.1 op.2 hfull hlen2 hpre hnm hnma
    show ((rest.foldl (fun s op => (s.addRow W op.1 op.2).1) (s.addRow W op.1 op.2).1).contents
        = _) ∧ _
    refine ih (done ++ [op]) (s.addRow W op.1 op.2).1 (by simp) ?_ ?_ ?_
    · rw [hnew]
      show s.contents ++ [op.1] = (done ++ [op]).map Prod.fst
      rw [hc]
      simp
    · rw [hnew]
      show s.targets ++ [op.2] = (done ++ [op]).map Prod.snd
      rw [ht]
      simp
    · rw [hnew]
      show s.independent_rows + 1 = (done ++ [op]).length
      rw [hir]
      simp

theorem addAll_full (W : Nat) (L : List (Row × Bool))
    (hind : LinearIndependent (ZMod 2) (fun i : Fin L.length => bvec W (L.get i).1)) :
    (applyOps W L).contents = L.map Prod.fst
    ∧ (applyOps W L).targets = L.map Prod.snd
    ∧ (applyOps W L).independent_rows = L.length :=
  addAll_state W L hind L [] MatrixSolver.empty rfl rfl rfl rfl

theorem solve_eq (W : Nat) (s : MatrixSolver) (h : s.independent_rows = W) :
    s.solve W = some (backwardSubstitute W
        (gaussianEliminate W W (getRow s.contents) (getTarget s.targets)).1
        (gaussianEliminate W W (getRow s.contents) (getTarget s.targets)).2,
      ⟨W, (List.range s.contents.length).map
          (gaussianEliminate W W (getRow s.contents) (getTarget s.targets)).1,
        (List.range s.targets.length).map
          (gaussianEliminate W W (getRow s.contents) (getTarget s.targets)).2⟩) := by
  unfold MatrixSolver.solve
  rw [h]
  rw [if_neg (fun hcon => hcon rfl)]

/-- C3: submitting `W` equations with linearly independent coefficient rows
through `addRow` drives the rank to `W`, and `solve()` then returns a vector
whose GF(2) dot product with each submitted coefficient row equals that
equation's target bit. -/
theorem claim_C3 (W : Nat) (eqs : List (Row × Bool)) (hlen : eqs.length = W)
    (hind : LinearIndependent (ZMod 2) (fun i : Fin eqs.length => bvec W (eqs.get i).1)) :
    (applyOps W eqs).getIndependent = W
    ∧ ∃ x s2, (applyOps W eqs).solve W = some (x, s2)
        ∧ ∀ e ∈ eqs, dotRow W e.1 x = e.2 := by
  obtain ⟨hc, ht, hir⟩ := addAll_full W eqs hind
  have hirW : (applyOps W eqs).independent_rows = W := by rw [hir, hlen]
  refine ⟨hirW, ?_⟩
  set C := getRow (applyOps W eqs).contents with hC
  set T := getTarget (applyOps W eqs).targets with hT
  have hCval : ∀ i : Nat, i < W → ∀ hi2 : i < eqs.length, C i = (eqs.get ⟨i, hi2⟩).1 := by
    intro i hi hi2
    rw [hC]
    unfold getRow
    rw [hc]
    rw [List.getD_eq_getElem _ _ (by simpa using hi2)]
    simp
  have hTval : ∀ i : Nat, i < W → ∀ hi2 : i < eqs.length, T i = (eqs.get ⟨i, hi2⟩).2 := by
    intro i hi hi2
    rw [hT]
    unfold getTarget
    rw [ht]
    rw [List.getD_eq_getElem _ _ (by simpa using hi2)]
    simp
  have hfamInd : LinearIndependent (ZMod 2) (fam W W C) := by
    have heq : fam W W C
        = (fun i : Fin eqs.length => bvec W (eqs.get i).1) ∘ (Fin.cast hlen.symm) := by
      funext i
      show bvec W (C i.val) = _
      rw [hCval i.val i.isLt (by omega)]
      rfl
    rw [heq]
    apply hind.comp
    intro a b hab
    have h2 := congrArg Fin.val hab
    exact Fin.ext h2
  have hinv := gaussianEliminate_inv W C T hfamInd
  have hsat2 := backwardSubstitute_sat W (gaussianEliminate W W C T).1
    (gaussianEliminate W W C T).2 hinv.diag hinv.below
  have hsat := (gaussianEliminate_sat W W C T
    (backwardSubstitute W (gaussianEliminate W W C T).1 (gaussianEliminate W W C T).2)).mp
    hsat2
  refine ⟨_, _, solve_eq W _ hirW, ?_⟩
  intro e he
  obtain ⟨i, hi⟩ := List.mem_iff_get.mp he
  have hiW : i.val < W := by have := i.isLt; omega
  have hrow := hsat i.val hiW
  rw [hCval i.val hiW i.isLt, hTval i.val hiW i.isLt] at hrow
  have hieq : eqs.get ⟨i.val, i.isLt⟩ = e := by
    rw [← hi]
  rw [hieq] at hrow
  exact hrow

theorem claim_C3_witness :
    (applyOps 1 [((fun _ => true : Row), true)]).getIndependent = 1
    ∧ ∃ x s2, (applyOps 1 [((fun _ => true : Row), true)]).solve 1 = some (x, s2)
        ∧ ∀ e ∈ [((fun _ => true : Row), true)], dotRow 1 e.1 x = e.2 :=
  claim_C3 1 [((fun _ => true : Row), true)] rfl (by
    show LinearIndependent (ZMod 2)
      (fun i : Fin 1 => bvec 1 ([((fun _ => true : Row), true)].get i).1)
    apply linearIndependent_unique
    intro h
    have h2 := congrFun h (0 : Fin 1)
    simp [bvec, b2z] at h2)

theorem getD_map_range {α : Type} (n i : Nat) (f : Nat → α) (d : α) (h : i < n) :
    ((List.range n).map f).getD i d = f i := by
  rw [List.getD_eq_getElem _ _ (by simpa using h)]
  simp

theorem gElimStep_fix (ir i : Nat) (C : Nat → Row) (T : Nat → Bool) (hi : i < ir)
    (hdiag : C i i = true) (hbelow : ∀ t, i < t → t < ir → C t i = false) :
    gElimStep ir i (C, T) = (C, T) := by
  have hfind : (List.range ir).find? (fun j => decide (i ≤ j) && C j i) = some i := by
    apply find_range_eq _ ir i hi
    · rw [hdiag]
      simp
    · intro j hj
      rw [Bool.and_eq_false_iff]
      left
      simp only [decide_eq_false_iff_not]
      omega
  rw [gElimStep_eq_some hfind]
  have hswap : swapRows C i i = C := by
    funext t
    unfold swapRows
    split_ifs with h1
    · rw [h1]
    · rfl
  rw [hswap]
  have hcond : ∀ t, (decide (i + 1 ≤ t) && decide (t < ir) && C t i) = false := by
    intro t
    by_cases h1 : i + 1 ≤ t
    · by_cases h2 : t < ir
      · rw [hbelow t (by omega) h2, Bool.and_false]
      · rw [show decide (t < ir) = false from by
          simp only [decide_eq_false_iff_not]; omega]
        simp
    · rw [show decide (i + 1 ≤ t) = false from by
        simp only [decide_eq_false_iff_not]; omega]
      simp
  rw [Prod.ext_iff]
  constructor
  · show (fun t => if (decide (i + 1 ≤ t) && decide (t < ir) && C t i) = true then
        xor_vectors (C t) (C i) else C t) = C
    funext t
    show (if (decide (i + 1 ≤ t) && decide (t < ir) && C t i) = true then
        xor_vectors (C t) (C i) else C t) = C t
    rw [hcond t, if_neg Bool.false_ne_true]
  · show (fun t => if (decide (i + 1 ≤ t) && decide (t < ir) && C t i) = true then
        xor ((fun u => if u = i then T i else if u = i then T i else T u) i)
            ((fun u => if u = i then T i else if u = i then T i else T u) t)
        else (fun u => if u = i then T i else if u = i then T i else T u) t) = T
    funext t
    show (if (decide (i + 1 ≤ t) && decide (t < ir) && C t i) = true then
        xor ((fun u => if u = i then T i else if u = i then T i else T u) i)
            ((fun u => if u = i then T i else if u = i then T i else T u) t)
        else (fun u => if u = i then T i else if u = i then T i else T u) t) = T t
    rw [hcond t, if_neg Bool.false_ne_true]
    show (if t = i then T i else if t = i then T i else T t) = T t
    by_cases h : t = i
    · rw [if_pos h, h]
    · rw [if_neg h, if_neg h]

theorem gaussianEliminate_fix (W : Nat) (C : Nat → Row) (T : Nat → Bool)
    (hdiag : ∀ j, j < W → C j j = true)
    (hbelow : ∀ j t, j < W → j < t → t < W → C t j = false) :
    gaussianEliminate W W C T = (C, T) := by
  unfold gaussianEliminate
  have hgen : ∀ l : List Nat, (∀ i ∈ l, i < W) →
      l.foldl (fun s i => gElimStep W i s) (C, T) = (C, T) := by
    intro l
    induction l with
    | nil => intro _; rfl
    | cons a as ih =>
      intro h
      show as.foldl (fun s i => gElimStep W i s) (gElimStep W a (C, T)) = (C, T)
      rw [gElimStep_fix W a C T (h a (List.mem_cons_self a as))
        (hdiag a (h a (List.mem_cons_self a as)))
        (fun t hat htW => hbelow a t (h a (List.mem_cons_self a as)) hat htW)]
      exact ih (fun i hi => h i (List.mem_cons_of_mem a hi))
  exact hgen (List.range W) (fun i hi => List.mem_range.mp hi)

theorem backSubGo_congr (ir : Nat) (C1 C2 : Nat → Row) (T1 T2 : Nat → Bool)
    (hC : ∀ t, t < ir → C1 t = C2 t) (hT : ∀ t, t < ir → T1 t = T2 t) :
    ∀ j, j ≤ ir → ∀ res, backSubGo ir C1 T1 j res = backSubGo ir C2 T2 j res := by
  intro j
  induction j with
  | zero => intro _ res; rfl
  | succ n ih =>
    intro hn res
    show backSubGo ir C1 T1 n (setIdx res n (xor (backSubAcc ir n C1 res) (T1 n)))
      = backSubGo ir C2 T2 n (setIdx res n (xor (backSubAcc ir n C2 res) (T2 n)))
    rw [show backSubAcc ir n C1 res = backSubAcc ir n C2 res from by
        unfold backSubAcc
        rw [hC n (by omega)],
      hT n (by omega), ih (by omega)]

/-- C6: on a full-rank solver state, `solve` succeeds, and calling `solve`
again on the returned state gives the same solution vector and the same
state: the in-place elimination is the identity on an eliminated matrix. -/
theorem claim_C6 (W : Nat) (s : MatrixSolver) (hpre : PrefixIndep W s)
    (hir : s.independent_rows = W) (hlen : s.targets.length = s.contents.length) :
    ∃ x s2, s.solve W = some (x, s2) ∧ s2.solve W = some (x, s2) := by
  have hWlen : W ≤ s.contents.length := by
    have := prefixIndep_le W s hpre
    omega
  set C := getRow s.contents with hC
  set T := getTarget s.targets with hT
  have hfamInd : LinearIndependent (ZMod 2) (fam W W C) := by
    have heq : fam W W C = prefixFam W s ∘ Fin.cast hir.symm := rfl
    rw [heq]
    apply hpre.comp
    intro a b hab
    have h2 := congrArg Fin.val hab
    exact Fin.ext h2
  have hinv := gaussianEliminate_inv W C T hfamInd
  set p := gaussianEliminate W W C T with hp
  set x := backwardSubstitute W p.1 p.2 with hx
  have hsolve1 := solve_eq W s hir
  set s2 : MatrixSolver := ⟨W, (List.range s.contents.length).map p.1,
    (List.range s.targets.length).map p.2⟩ with hs2
  have hC2 : ∀ t, t < s.contents.length → getRow s2.contents t = p.1 t := by
    intro t ht
    show ((List.range s.contents.length).map p.1).getD t (fun _ => false) = p.1 t
    exact getD_map_range _ _ _ _ ht
  have hT2 : ∀ t, t < s.targets.length → getTarget s2.targets t = p.2 t := by
    intro t ht
    show ((List.range s.targets.length).map p.2).getD t false = p.2 t
    exact getD_map_range _ _ _ _ ht
  have hdiag2 : ∀ j, j < W → getRow s2.contents j j = true := by
    intro j hj
    rw [hC2 j (by omega)]
    exact hinv.diag j hj
  have hbelow2 : ∀ j t, j < W → j < t → t < W → getRow s2.contents t j = false := by
    intro j t hj hjt htW
    rw [hC2 t (by omega)]
    exact hinv.below j t hj hjt htW
  have hfix := gaussianEliminate_fix W (getRow s2.contents) (getTarget s2.targets)
    hdiag2 hbelow2
  have hsolve2 := solve_eq W s2 rfl
  rw [hfix] at hsolve2
  refine ⟨x, s2, hsolve1, hsolve2.trans ?_⟩
  congr 1
  rw [Prod.ext_iff]
  constructor
  · show backwardSubstitute W (getRow s2.contents) (getTarget s2.targets) = x
    rw [hx]
    unfold backwardSubstitute
    exact backSubGo_congr W (getRow s2.contents) p.1 (getTarget s2.targets) p.2
      (fun t ht => hC2 t (by omega)) (fun t ht => hT2 t (by omega)) W (le_refl W) _
  · show (⟨W, (List.range s2.contents.length).map (getRow s2.contents),
        (List.range s2.targets.length).map (getTarget s2.targets)⟩ : MatrixSolver) = s2
    have hlc : s2.contents.length = s.contents.length := by rw [hs2]; simp
    have hlt : s2.targets.length = s.targets.length := by rw [hs2]; simp
    rw [hlc, hlt]
    rw [hs2]
    simp only [MatrixSolver.mk.injEq]
    refine ⟨trivial, ?_, ?_⟩
    · apply List.map_congr_left
      intro a ha
      rw [List.mem_range] at ha
      exact hC2 a ha
    · apply List.map_congr_left
      intro a ha
      rw [List.mem_range] at ha
      exact hT2 a ha

theorem claim_C6_witness :
    ∃ x s2, (applyOps 1 [((fun _ => true : Row), true)]).solve 1 = some (x, s2)
      ∧ s2.solve 1 = some (x, s2) :=
  claim_C6 1 (applyOps 1 [((fun _ => true : Row), true)])
    (foldAdd_inv 1 [((fun _ => true : Row), true)] MatrixSolver.empty
      (empty_prefixIndep 1) rfl).1
    (by rfl)
    (foldAdd_inv 1 [((fun _ => true : Row), true)] MatrixSolver.empty
      (empty_prefixIndep 1) rfl).2.1
